import Mathlib

/-!
Verification development for the sandboxed tool-execution layer of the
codex-task-executor Go program (scripts/main.go, scripts/tools.go,
scripts/api.go, and the POSIX secure-open file).

The embedding models the POSIX build of the program: `filepath.ToSlash` is the
identity, `filepath.VolumeName` always returns the empty string, and
`filepath.IsAbs` tests for a leading slash.  Strings are processed as their
character lists; Go byte lengths are modelled by character counts (all concrete
inputs used below are ASCII).  Fallible filesystem syscalls are modelled over
an explicit in-memory filesystem tree, with an injection flag for the one
syscall whose failure the code does not guard against (the final WriteString).
-/

/-- Split a character list on a separator character; models `strings.Split`
for a one-character separator (splitting "" yields one empty field). -/
def splitSep (sep : Char) : List Char → List (List Char)
  | [] => [[]]
  | c :: rest =>
    let r := splitSep sep rest
    if c = sep then [] :: r
    else
      match r with
      | [] => [[c]]
      | h :: t => (c :: h) :: t

/-- Join character-list segments with a separator character; models
`strings.Join` for a one-character separator. -/
def joinSep (sep : Char) : List (List Char) → List Char
  | [] => []
  | [l] => l
  | l :: ls => l ++ sep :: joinSep sep ls

/-- The slash-separated segments of a path string. -/
def strSegs (p : String) : List (List Char) := splitSep '/' p.toList

/-- Models `strings.HasPrefix`. -/
def strHasPrefix (pre s : String) : Bool := pre.toList.isPrefixOf s.toList

/-- Models `strings.HasSuffix`. -/
def strHasSuffix (suf s : String) : Bool := suf.toList.reverse.isPrefixOf s.toList.reverse

/-- ASCII lower-casing of a character, for the case-insensitive deny patterns. -/
def lowerCh (c : Char) : Char :=
  if 'A' ≤ c ∧ c ≤ 'Z' then Char.ofNat (c.toNat + 32) else c

/-- Case-insensitive `strings.HasSuffix`, modelling a `(?i)` suffix regex. -/
def endsWithCI (suf s : String) : Bool :=
  (suf.toList.map lowerCh).reverse.isPrefixOf (s.toList.map lowerCh).reverse

/-- One step of the lexical simplification performed by `filepath.Clean` on a
relative slash path: drop empty and "." segments and resolve ".." against the
already-accumulated segments. -/
def cleanAccum (acc : List (List Char)) (part : List Char) : List (List Char) :=
  if part = [] ∨ part = ['.'] then acc
  else if part = ['.', '.'] then
    if acc ≠ [] ∧ acc.getLast? ≠ some ['.', '.'] then acc.dropLast
    else acc ++ [['.', '.']]
  else acc ++ [part]

/-- The cleaned segments of a relative path, modelling `filepath.Clean` on a
relative slash path (an empty result stands for Clean's "."). -/
def goCleanParts (parts : List (List Char)) : List (List Char) :=
  parts.foldl cleanAccum []

/-- Models `filepath.ToSlash`, which is the identity on POSIX. -/
def goToSlash (p : String) : String := p

/-- Models `filepath.VolumeName`, which returns the empty string for every
path on POSIX (Windows drive/UNC prefixes are outside the modelled scope). -/
def goVolumeName (_p : String) : String := ""

/-- Models `filepath.IsAbs` on POSIX: a path is absolute iff it starts with a
slash. -/
def goIsAbs (p : String) : Bool :=
  match p.toList with
  | '/' :: _ => true
  | _ => false

/-- Does the string contain a raw newline or carriage-return character?
Models `strings.ContainsAny(path, "\n\r")`. -/
def hasNlCr (p : String) : Bool := p.toList.any (fun c => c = '\n' ∨ c = '\r')

/-- Does the path have a segment (split on '/') equal to ".."? -/
def hasDotDotSeg (p : String) : Bool := (strSegs p).any (fun l => l = ['.', '.'])

/-- Embedding of `requireSafePath` (tools.go): syntactic path validation with
no filesystem interaction.  Returns the error message, or `none` when the path
is accepted. -/
def requireSafePath (path : String) : Option String :=
  if path = "" ∨ hasNlCr path then some "invalid path"
  else if goVolumeName path ≠ "" then some "volume paths not allowed"
  else if goIsAbs path then some "absolute paths not allowed"
  else if strHasPrefix "~" path then some "home paths not allowed"
  else if hasDotDotSeg path then some "parent traversal not allowed"
  else none

/-- Models `filepath.Base` for the (relative, slash-separated) paths the deny
check receives. -/
def goBase (p : String) : String :=
  let l := p.toList
  if l = [] then "."
  else
    let l1 := (l.reverse.dropWhile (fun c => c = '/')).reverse
    if l1 = [] then "/"
    else String.mk ((l1.reverse.takeWhile (fun c => c ≠ '/')).reverse)

/-- Does `b` start with `pre` followed by at least one more character?
Models an anchored regex alternative of the form `^pre.+`. -/
def startsProper (pre b : String) : Bool :=
  strHasPrefix pre b ∧ pre.toList.length < b.toList.length

/-- Embedding of the `denyBasenamesRE` match on a basename (main.go). -/
def denyBasename (base : String) : Bool :=
  base = ".env" ∨ startsProper ".env." base ∨
  base = "id_rsa" ∨ startsProper "id_rsa." base ∨
  base = "known_hosts" ∨ base = "config" ∨ base = "credentials" ∨
  base = ".npmrc" ∨ base = ".pypirc" ∨ base = ".netrc" ∨
  base = "secrets" ∨ startsProper "secrets." base

/-- Embedding of the `denyExtRE` match (main.go): case-insensitive sensitive
file extensions. -/
def denyExt (relPath : String) : Bool :=
  [".pem", ".key", ".p12", ".pfx", ".cer", ".crt", ".der", ".kdbx",
   ".tfstate", ".tfvars"].any (fun suf => endsWithCI suf relPath)

/-- Embedding of the `denyPathRE` match (main.go): a ".git" path segment, or a
path ending in ".docker/config.json". -/
def denyPath (relPath : String) : Bool :=
  (strSegs relPath).any (fun l => l = ['.', 'g', 'i', 't']) ∨
  strHasSuffix ".docker/config.json" relPath

/-- Embedding of `isDeniedPath` (tools.go): the three denylist pattern
families applied to basename, extension and full path. -/
def isDeniedPath (relPath0 : String) : Bool :=
  let relPath := goToSlash relPath0
  let base := goBase relPath
  denyBasename base ∨ denyExt relPath ∨ denyPath relPath

/-- In-memory filesystem tree: regular files with string content, symbolic
links (whose targets the model never resolves: every access path rejects
them), and directories as association lists from entry name to node. -/
inductive FsNode where
  | file (content : String)
  | symlink (target : String)
  | dir (entries : List (String × FsNode))

/-- Association-list lookup by string key (directory entry lookup and
tool-argument lookup). -/
def lookupE {α : Type} : List (String × α) → String → Option α
  | [], _ => none
  | (n, v) :: rest, name => if n = name then some v else lookupE rest name

/-- Replace the binding for `name` (or append it if absent). -/
def setE : List (String × FsNode) → String → FsNode → List (String × FsNode)
  | [], name, v => [(name, v)]
  | (n, w) :: rest, name, v =>
    if n = name then (n, v) :: rest else (n, w) :: setE rest name v

/-- The access mode requested from `openSecure`: read (`O_RDONLY`) or write
(`O_WRONLY|O_TRUNC`, with `O_CREATE` when `create` is set). -/
inductive OpenMode where
  | read
  | write (create : Bool)

/-- The component-at-a-time walk of the POSIX `openSecure`: each intermediate
component is opened relative to the previously held directory with
`O_DIRECTORY|O_NOFOLLOW` (a symlink or non-directory fails the walk), and only
the final component is opened with the caller's mode plus `O_NOFOLLOW`.  On
success returns the node seen by the returned handle and the updated
directory subtree (a write-mode open truncates or creates the file, as
`O_TRUNC`/`O_CREATE` do at open time). -/
def walkOpen : FsNode → List String → OpenMode → Except String (FsNode × FsNode)
  | _, [], _ => .error "unexpected: loop completed without opening file"
  | cur, p :: rest, mode =>
    if p = "" ∨ p = "." then walkOpen cur rest mode
    else if p = ".." then .error "parent traversal not allowed"
    else
      match cur with
      | .dir es =>
        match rest with
        | [] =>
          match lookupE es p, mode with
          | some (.symlink _), _ => .error "ELOOP"
          | some (.file c), .read => .ok (.file c, .dir es)
          | some (.file _), .write _ => .ok (.file "", .dir (setE es p (.file "")))
          | some (.dir d), .read => .ok (.dir d, .dir es)
          | some (.dir _), .write _ => .error "EISDIR"
          | none, .write true => .ok (.file "", .dir (setE es p (.file "")))
          | none, _ => .error "ENOENT"
        | _ :: _ =>
          match lookupE es p with
          | some (.dir d) =>
            match walkOpen (.dir d) rest mode with
            | .error e => .error e
            | .ok (nd, d2) => .ok (nd, .dir (setE es p d2))
          | some (.symlink _) => .error ("cannot traverse " ++ p ++ ": ELOOP")
          | some (.file _) => .error ("cannot traverse " ++ p ++ ": ENOTDIR")
          | none => .error ("cannot traverse " ++ p ++ ": ENOENT")
      | _ => .error "ENOTDIR"

/-- The cleaned slash components of a relative path, as strings (the `parts`
that `openSecure` walks). -/
def pathParts (p : String) : List String :=
  (goCleanParts (strSegs (goToSlash p))).map (fun seg => String.mk seg)

/-- Embedding of the POSIX `openSecure`: validate the path, clean it, reject a
cleaned path escaping upward, then walk it component by component with
no-follow semantics.  (Cleaning and re-splitting the cleaned string is modelled
directly by the cleaned segment list.) -/
def openSecure (fs : FsNode) (relPath : String) (mode : OpenMode) :
    Except String (FsNode × FsNode) :=
  match requireSafePath relPath with
  | some e => .error e
  | none =>
    match goCleanParts (strSegs (goToSlash relPath)) with
    | [] => .error "invalid path"
    | l :: ls =>
      if ['.', '.'].isPrefixOf l then .error "path escapes repository"
      else walkOpen fs ((l :: ls).map (fun seg => String.mk seg)) mode

/-- The walk of the POSIX `createParentDirs`: descend each parent component
through the held directory handle with no-follow semantics, creating missing
components with `Mkdirat`.  An entry that exists but cannot be opened as a
non-symlink directory makes the subsequent `Mkdirat` fail with `EEXIST`. -/
def walkMk : FsNode → List String → Except String FsNode
  | cur, [] => .ok cur
  | cur, p :: rest =>
    if p = "" ∨ p = "." then walkMk cur rest
    else if p = ".." then .error "parent traversal in mkdir"
    else
      match cur with
      | .dir es =>
        match lookupE es p with
        | some (.dir d) =>
          match walkMk (.dir d) rest with
          | .error e => .error e
          | .ok d2 => .ok (.dir (setE es p d2))
        | some (.symlink _) => .error ("mkdirat " ++ p ++ ": EEXIST")
        | some (.file _) => .error ("mkdirat " ++ p ++ ": EEXIST")
        | none =>
          match walkMk (.dir []) rest with
          | .error e => .error e
          | .ok d2 => .ok (.dir (setE es p d2))
      | _ => .error "ENOTDIR"

/-- The cleaned segments of `filepath.Dir(p)` (which cleans the path with its
last slash-separated element removed); an empty result stands for ".". -/
def goDirParts (p : String) : List (List Char) :=
  goCleanParts (strSegs p).dropLast

/-- Embedding of the POSIX `createParentDirs`: create the missing ancestors of
`relPath` component by component with symlink protection; a parent of "."
needs no work. -/
def createParentDirs (fs : FsNode) (relPath : String) : Except String FsNode :=
  match goDirParts relPath with
  | [] => .ok fs
  | l :: ls => walkMk fs ((l :: ls).map (fun seg => String.mk seg))

/-- Write `content` to the file at an existing validated component chain;
models `file.WriteString` on the handle `openSecure` returned. -/
def setFile : FsNode → List String → String → FsNode
  | cur, [], _ => cur
  | .dir es, [p], c => .dir (setE es p (.file c))
  | .dir es, p :: q :: rest, c =>
    match lookupE es p with
    | some child => .dir (setE es p (setFile child (q :: rest) c))
    | none => .dir es
  | n, _, _ => n

/-- The content of the regular file reached by following the component chain
through directories only (no symlink is ever followed). -/
def fileAt : FsNode → List String → Option String
  | .file c, [] => some c
  | .dir es, p :: rest =>
    match lookupE es p with
    | some n => fileAt n rest
    | none => none
  | _, _ => none

/-- Does the component chain, resolved through directories from `fs`, meet a
symbolic link at any position (intermediate or final)? -/
def chainHitsSymlink : FsNode → List String → Bool
  | .dir es, p :: rest =>
    (match lookupE es p with
     | some (.symlink _) => true
     | some (.dir d) => chainHitsSymlink (.dir d) rest
     | _ => false)
  | _, _ => false

/-- Embedding of `ToolResult` (main.go).  The JSON `Extra` map is modelled as
an association list with stringified values. -/
structure ToolResult where
  ok : Bool
  tool : String := ""
  error : String := ""
  results : List String := []
  content : String := ""
  count : Nat := 0
  path : String := ""
  extra : List (String × String) := []
deriving DecidableEq

/-- Limit constants from main.go. -/
def defaultMaxResults : Nat := 200

/-- Limit constant from main.go. -/
def defaultMaxReadLines : Nat := 400

/-- Limit constant from main.go (2 MB). -/
def maxGrepFileSize : Nat := 2097152

/-- The 1 MB per-line ceiling the tools configure on `bufio.Scanner`. -/
def scannerLineLimit : Nat := 1048576

/-- Counting loop behind `strings.Count` for a non-empty substring: at skip
level 0 a match is counted and the remainder of the match is skipped, so
occurrences are counted non-overlapping, exactly as `strings.Count` does. -/
def cntAux (pat : List Char) : List Char → Nat → Nat
  | [], _ => 0
  | c :: t, 0 =>
    if pat.isPrefixOf (c :: t) then 1 + cntAux pat t (pat.length - 1)
    else cntAux pat t 0
  | _ :: t, k+1 => cntAux pat t k

/-- Models `strings.Count` (for an empty substring Go returns the rune count
plus one). -/
def countOcc (s pat : List Char) : Nat :=
  if pat = [] then s.length + 1 else cntAux pat s 0

/-- Replace the first occurrence of `pat` (non-empty) in `s` by `rep`. -/
def replAux (pat rep : List Char) : List Char → List Char
  | [] => []
  | c :: t =>
    if pat.isPrefixOf (c :: t) then rep ++ (c :: t).drop pat.length
    else c :: replAux pat rep t

/-- Models `strings.Replace(s, pat, rep, 1)`. -/
def replaceOnce (s pat rep : List Char) : List Char :=
  if pat = [] then rep ++ s else replAux pat rep s

/-- Models `strings.Contains`. -/
def containsSub : List Char → List Char → Bool
  | [], pat => pat.isEmpty
  | c :: t, pat => pat.isPrefixOf (c :: t) || containsSub t pat

/-- Strip one trailing carriage return, as `bufio.ScanLines` does via
`dropCR`. -/
def dropCR (l : List Char) : List Char :=
  if l.getLast? = some '\r' then l.dropLast else l

/-- The newline-delimited lines of a byte sequence, before CR stripping: the
segments split on newline, without the empty segment a trailing newline
produces (an empty input has no lines). -/
def trueLines (s : List Char) : List (List Char) :=
  if s = [] then []
  else
    let segs := splitSep '\n' s
    if segs.getLast? = some [] then segs.dropLast else segs

/-- The lines a `bufio.Scanner` with `bufio.ScanLines` yields: the
newline-delimited lines with a trailing carriage return stripped from each. -/
def scanLines (s : List Char) : List (List Char) := (trueLines s).map dropCR

/-- Zero-padded six-digit line number, modelling `fmt.Sprintf("%06d", n)`. -/
def fmt6 (n : Nat) : String :=
  let s := toString n
  String.mk (List.replicate (6 - s.toList.length) '0' ++ s.toList)

/-- The numbered output lines of `toolRead`: lines whose 1-based number lies
in `[startN, endN]`, each rendered as `%06d\t%s`. -/
def numberFrom (startN endN : Nat) : Nat → List (List Char) → List String
  | _, [] => []
  | n, l :: ls =>
    (if startN ≤ n ∧ n ≤ endN then [fmt6 n ++ "\t" ++ String.mk l] else []) ++
      numberFrom startN endN (n + 1) ls

/-- Join rendered lines with newlines, modelling `strings.Join(lines, "\n")`. -/
def joinNl (ls : List String) : String :=
  String.mk (joinSep '\n' (ls.map String.toList))

/-- Embedding of `toolRead` (tools.go): validate and deny-check the path, open
it through `openSecure` read-only, require a regular file, clamp the requested
line range against the line budget, and return the selected lines numbered
`%06d\t`-style.  A line longer than the scanner buffer ceiling inside the
scanned prefix surfaces as a scanner error. -/
def toolRead (fs : FsNode) (repoRoot path : String)
    (startLine endLine maxLines : Int) : ToolResult :=
  match requireSafePath path with
  | some e => { ok := false, error := "Read: " ++ e }
  | none =>
    if isDeniedPath path then { ok := false, error := "Read: access denied" }
    else
      match openSecure fs path .read with
      | .error e => { ok := false, error := "Read: " ++ e }
      | .ok (node, _) =>
        match node with
        | .file c =>
          let maxL : Int :=
            if maxLines ≤ 0 ∨ maxLines > (defaultMaxReadLines : Int) then
              (defaultMaxReadLines : Int)
            else maxLines
          let startL : Int := if startLine < 1 then 1 else startLine
          let endL0 : Int := if endLine ≤ 0 then startL + maxL - 1 else endLine
          let endL1 : Int := if endL0 < startL then startL else endL0
          let endL : Int :=
            if endL1 - startL + 1 > maxL then startL + maxL - 1 else endL1
          let ls := scanLines c.toList
          if (ls.take (endL.toNat + 1)).any (fun l => scannerLineLimit < l.length) then
            { ok := false, error := "Read: bufio.Scanner: token too long" }
          else
            { ok := true, tool := "Read", path := path,
              content := joinNl (numberFrom startL.toNat endL.toNat 1 ls),
              extra := [("start", toString startL), ("end", toString endL),
                        ("repo_root", repoRoot)] }
        | _ => { ok := false, error := "Read: not a regular file" }

/-- Embedding of `toolWrite` (tools.go).  `wok` injects the outcome of the
final `WriteString` syscall, the one failure the code does not guard against:
when it fails the file has already been truncated/created by the
`O_TRUNC|O_CREATE` open. -/
def toolWrite (fs : FsNode) (repoRoot path content : String) (wok : Bool) :
    ToolResult × FsNode :=
  match requireSafePath path with
  | some e => ({ ok := false, error := "Write: " ++ e }, fs)
  | none =>
    if isDeniedPath path then
      ({ ok := false, error := "Write: access denied" }, fs)
    else
      match createParentDirs fs path with
      | .error e => ({ ok := false, error := "Write: mkdir failed: " ++ e }, fs)
      | .ok fs1 =>
        match openSecure fs1 path (.write true) with
        | .error e => ({ ok := false, error := "Write: " ++ e }, fs1)
        | .ok (_, fs2) =>
          if wok then
            ({ ok := true, tool := "Write", path := path,
               extra := [("bytes", toString content.length)] },
             setFile fs2 (pathParts path) content)
          else ({ ok := false, error := "Write: EIO" }, fs2)

/-- Embedding of `toolEdit` (tools.go): read the whole file through
`openSecure`, require `old_string` non-empty and present exactly once
(`strings.Count` semantics), substitute once in memory, reopen the path with
`O_WRONLY|O_TRUNC` and write the new content back.  `wok` injects the outcome
of the final `WriteString`. -/
def toolEdit (fs : FsNode) (repoRoot path oldString newString : String)
    (wok : Bool) : ToolResult × FsNode :=
  match requireSafePath path with
  | some e => ({ ok := false, error := "Edit: " ++ e }, fs)
  | none =>
    if isDeniedPath path then
      ({ ok := false, error := "Edit: access denied" }, fs)
    else if oldString = "" then
      ({ ok := false, error := "Edit: old_string must be non-empty" }, fs)
    else
      match openSecure fs path .read with
      | .error e => ({ ok := false, error := "Edit: " ++ e }, fs)
      | .ok (node, _) =>
        match node with
        | .file contentStr =>
          if containsSub contentStr.toList oldString.toList then
            let count := countOcc contentStr.toList oldString.toList
            if 1 < count then
              ({ ok := false,
                 error := "Edit: old_string appears " ++ toString count ++
                   " times (must be unique)" }, fs)
            else
              let newContent :=
                String.mk (replaceOnce contentStr.toList oldString.toList newString.toList)
              match openSecure fs path (.write false) with
              | .error e =>
                ({ ok := false, error := "Edit: open for write failed: " ++ e }, fs)
              | .ok (_, fs1) =>
                if wok then
                  ({ ok := true, tool := "Edit", path := path,
                     extra := [("replaced", toString oldString.length),
                               ("with", toString newString.length)] },
                   setFile fs1 (pathParts path) newContent)
                else ({ ok := false, error := "Edit: write failed: EIO" }, fs1)
          else
            ({ ok := false, error := "Edit: old_string not found in file" }, fs)
        | _ => ({ ok := false, error := "Edit: not a regular file" }, fs)

/-- Fuelled glob matcher, modelling `filepath.Match` restricted to the
constructs the program's patterns use: literal characters, `?`, and `*`
(which never matches a separator because matching is applied per path
segment).  The fuel strictly exceeds any reachable recursion depth. -/
def goMatchF : Nat → List Char → List Char → Bool
  | 0, _, _ => false
  | _+1, [], [] => true
  | _+1, [], _ :: _ => false
  | f+1, '*' :: pt, s =>
    goMatchF f pt s ||
      (match s with
       | [] => false
       | _ :: st => goMatchF f ('*' :: pt) st)
  | f+1, '?' :: pt, s =>
    (match s with
     | [] => false
     | _ :: st => goMatchF f pt st)
  | f+1, c :: pt, s =>
    (match s with
     | [] => false
     | d :: st => c = d && goMatchF f pt st)

/-- Segment-level pattern match with sufficient fuel. -/
def goMatch (p s : List Char) : Bool := goMatchF (p.length + s.length + 1) p s

/-- Component-wise pattern match: every pattern segment must match the
corresponding path segment, and the segment counts must agree (a `*` never
crosses a slash, as in `filepath.Match`). -/
def matchSegs : List (List Char) → List (List Char) → Bool
  | [], [] => true
  | p :: ps, q :: qs => goMatch p q && matchSegs ps qs
  | _, _ => false

/-- Whole-path pattern match, modelling `filepath.Match(pattern, name)`. -/
def matchGlobFull (pattern name : String) : Bool :=
  matchSegs (splitSep '/' pattern.toList) (splitSep '/' name.toList)

/-- Lexicographic order on character lists (by code point), used to model the
sorted directory traversal of `filepath.Walk` and `filepath.Glob`. -/
def charsLt : List Char → List Char → Bool
  | [], [] => false
  | [], _ :: _ => true
  | _ :: _, [] => false
  | a :: as, b :: bs => if a = b then charsLt as bs else decide (a < b)

/-- Insertion into a name-sorted entry list. -/
def insertByName (x : String × FsNode) :
    List (String × FsNode) → List (String × FsNode)
  | [] => [x]
  | y :: ys => if charsLt x.1.toList y.1.toList then x :: y :: ys else y :: insertByName x ys

/-- Sort directory entries by name, as the filesystem walkers read them. -/
def sortEntries (es : List (String × FsNode)) : List (String × FsNode) :=
  es.foldr insertByName []

/-- Slash-join a walk prefix with an entry name. -/
def enumEntryName (pre nm : String) : String :=
  if pre = "" then nm else pre ++ "/" ++ nm

/-- Fuel bound for the modelled directory walks; the fuel is consumed per
visited entry, so it bounds the total number of entries a walk visits (the
modelled repositories are finite and far below this bound). -/
def walkFuel : Nat := 4096

/-- Depth-first lexical enumeration of every entry (files, directories and
symlinks) with its relative path, modelling the candidate expansion of
`filepath.Glob` over the tree. -/
def enumAllL : Nat → String → List (String × FsNode) → List (String × FsNode)
  | 0, _, _ => []
  | _+1, _, [] => []
  | fuel+1, pre, (nm, nd) :: rest =>
    ((enumEntryName pre nm, nd) ::
      (match nd with
       | .dir es2 => enumAllL fuel (enumEntryName pre nm) (sortEntries es2)
       | _ => [])) ++ enumAllL fuel pre rest

/-- All entries of the repository tree in walk order. -/
def enumAllFs (fs : FsNode) : List (String × FsNode) :=
  match fs with
  | .dir es => enumAllL walkFuel "" (sortEntries es)
  | _ => []

/-- Depth-first lexical enumeration of the non-directory entries, pruning any
directory named ".git", modelling the `filepath.Walk` traversal of
`toolGrep`. -/
def enumFP : Nat → String → List (String × FsNode) → List (String × FsNode)
  | 0, _, _ => []
  | _+1, _, [] => []
  | fuel+1, pre, (nm, nd) :: rest =>
    (match nd with
     | .dir es2 =>
       if nm = ".git" then []
       else enumFP fuel (enumEntryName pre nm) (sortEntries es2)
     | _ => [(enumEntryName pre nm, nd)]) ++ enumFP fuel pre rest

/-- The files (and symlinks) `toolGrep`'s walk visits, in order. -/
def enumGrep (fs : FsNode) : List (String × FsNode) :=
  match fs with
  | .dir es => enumFP walkFuel "" (sortEntries es)
  | _ => []

/-- Can the component chain be resolved from `fs` without meeting a symbolic
link?  (Symlink targets are opaque in the model, so resolution through a
symlink is conservatively treated as failing.) -/
def resolveNoSym : FsNode → List String → Bool
  | _, [] => true
  | .dir es, p :: rest =>
    (match lookupE es p with
     | some (.symlink _) => false
     | some n => resolveNoSym n rest
     | none => false)
  | _, _ => false

/-- Boolean success of `confineToRepo` (tools.go): the syntactic check plus
`EvalSymlinks`-based confinement — the target (or, for a not-yet-existing
target, its parent) must resolve inside the repository root.  The model does
not resolve symlink targets, so any symlink on the chain fails confinement. -/
def confineToRepoB (fs : FsNode) (relPath : String) : Bool :=
  match requireSafePath relPath with
  | some _ => false
  | none =>
    let parts := pathParts relPath
    resolveNoSym fs parts || resolveNoSym fs parts.dropLast

/-- The candidate-filtering loop of `toolGlob`: stop at `maxN` results, keep
regular files (a directory, or a symlink the model cannot resolve, is
skipped), skip denylisted paths, and keep only confined paths. -/
def globLoop (fs : FsNode) (maxN : Nat) :
    List (String × FsNode) → List String → List String
  | [], acc => acc
  | (rp, nd) :: rest, acc =>
    if maxN ≤ acc.length then acc
    else
      match nd with
      | .file _ =>
        if isDeniedPath rp then globLoop fs maxN rest acc
        else if confineToRepoB fs rp then globLoop fs maxN rest (acc ++ [rp])
        else globLoop fs maxN rest acc
      | _ => globLoop fs maxN rest acc

/-- The clamp `if maxResults <= 0 || maxResults > defaultMaxResults` applied
by `toolGlob` and `toolGrep` to the caller-supplied result budget. -/
def effMaxResults (maxResults : Int) : Nat :=
  (if maxResults ≤ 0 ∨ (defaultMaxResults : Int) < maxResults then
    (defaultMaxResults : Int)
  else maxResults).toNat

/-- Embedding of `toolGlob` (tools.go): validate the pattern, clamp the result
budget, expand the pattern against the tree (sorted, as `filepath.Glob`
returns its matches), then filter candidates. -/
def toolGlob (fs : FsNode) (repoRoot pattern : String) (maxResults : Int) :
    ToolResult :=
  match requireSafePath pattern with
  | some e => { ok := false, error := "Glob: " ++ e }
  | none =>
    let maxN : Nat := effMaxResults maxResults
    let cands := (enumAllFs fs).filter (fun e => matchGlobFull pattern e.1)
    let res := globLoop fs maxN cands []
    { ok := true, tool := "Glob", results := res, count := res.length,
      extra := [("repo_root", repoRoot), ("pattern", pattern)] }

/-- The per-file line scan of `toolGrep`: collect `path:line:text` records for
lines containing the query as a literal substring, stopping at the result
budget. -/
def grepLines (query relPath : String) (maxN : Nat) :
    List (List Char) → Nat → List String → List String
  | [], _, acc => acc
  | l :: ls, n, acc =>
    if maxN ≤ acc.length then acc
    else if containsSub l query.toList then
      grepLines query relPath maxN ls (n + 1)
        (acc ++ [relPath ++ ":" ++ toString n ++ ":" ++ String.mk l])
    else grepLines query relPath maxN ls (n + 1) acc

/-- The walk body of `toolGrep` over the visited files: skip denylisted paths,
paths failing the optional glob filter, oversized files, unconfined paths and
symlinks; abort the whole walk (`fs.SkipAll`) once the result budget is
reached; open survivors through `openSecure` and scan them line by line. -/
def grepLoop (fs : FsNode) (query globFilter : String) (maxN : Nat) :
    List (String × FsNode) → List String → List String
  | [], acc => acc
  | (rp, nd) :: rest, acc =>
    if isDeniedPath rp then grepLoop fs query globFilter maxN rest acc
    else if globFilter ≠ "" ∧ ¬matchGlobFull globFilter rp then
      grepLoop fs query globFilter maxN rest acc
    else
      match nd with
      | .file c =>
        if maxGrepFileSize < c.length then grepLoop fs query globFilter maxN rest acc
        else if ¬confineToRepoB fs rp then grepLoop fs query globFilter maxN rest acc
        else if maxN ≤ acc.length then acc
        else
          match openSecure fs rp .read with
          | .error _ => grepLoop fs query globFilter maxN rest acc
          | .ok (.file cc, _) =>
            grepLoop fs query globFilter maxN rest
              (grepLines query rp maxN (scanLines cc.toList) 1 acc)
          | .ok _ => grepLoop fs query globFilter maxN rest acc
      | _ => grepLoop fs query globFilter maxN rest acc

/-- The successful-traversal result of `toolGrep`. -/
def grepRun (fs : FsNode) (repoRoot query globFilter : String) (maxN : Nat) :
    ToolResult :=
  let ms := grepLoop fs query globFilter maxN (enumGrep fs) []
  { ok := true, tool := "Grep", results := ms, count := ms.length,
    extra := [("repo_root", repoRoot), ("query", query), ("glob", globFilter)] }

/-- Embedding of `toolGrep` (tools.go): require a non-empty query, clamp the
result budget, validate a non-empty glob filter, then walk the tree. -/
def toolGrep (fs : FsNode) (repoRoot query globFilter : String)
    (maxResults : Int) : ToolResult :=
  if query = "" then { ok := false, error := "Grep: query required" }
  else
    let maxN : Nat := effMaxResults maxResults
    if globFilter ≠ "" then
      match requireSafePath globFilter with
      | some e => { ok := false, error := "Grep: invalid glob: " ++ e }
      | none => grepRun fs repoRoot query globFilter maxN
    else grepRun fs repoRoot query globFilter maxN

/-- A JSON argument value as the dispatcher sees it (string, number, boolean
or null); Go's type assertions yield the zero value on a wrong type. -/
inductive JVal where
  | s (v : String)
  | n (v : Int)
  | b (v : Bool)
  | null
deriving DecidableEq

/-- The `args[k].(string)` type assertion: the string value, or "" when the
key is absent or not a string. -/
def getS (args : List (String × JVal)) (k : String) : String :=
  match lookupE args k with
  | some (.s v) => v
  | _ => ""

/-- The `int(args[k].(float64))` coercion: the numeric value, or 0 when the
key is absent or not a number. -/
def getN (args : List (String × JVal)) (k : String) : Int :=
  match lookupE args k with
  | some (.n v) => v
  | _ => 0

/-- Embedding of `executeTool` (tools.go), the task-executor's tool
dispatcher.  Its switch has cases for "Glob", "Read", "Write" and "Edit" and a
default unknown-tool failure; it has no "Grep" case. -/
def executeTool (fs : FsNode) (repoRoot toolName : String)
    (args : List (String × JVal)) (wok : Bool) : ToolResult × FsNode :=
  match toolName with
  | "Glob" => (toolGlob fs repoRoot (getS args "pattern") (getN args "max_results"), fs)
  | "Read" =>
    (toolRead fs repoRoot (getS args "path") (getN args "start_line")
      (getN args "end_line") (getN args "max_lines"), fs)
  | "Write" => toolWrite fs repoRoot (getS args "path") (getS args "content") wok
  | "Edit" =>
    toolEdit fs repoRoot (getS args "path") (getS args "old_string")
      (getS args "new_string") wok
  | _ => ({ ok := false, error := "Unknown tool: " ++ toolName }, fs)

/-- The tool names and required argument names advertised to the remote model
by `getToolsSchema` (api.go). -/
def getToolsSchema : List (String × List String) :=
  [("Glob", ["pattern"]), ("Grep", ["query"]), ("Read", ["path"]),
   ("Write", ["path", "content"]), ("Edit", ["path", "old_string", "new_string"])]

/-- One model turn as `extractCallsAndText` delivers it: the structured tool
calls and the free text. -/
structure ModelTurn where
  calls : List (String × List (String × JVal))
  text : String

/-- The outcome of `executeTask`: normal completion (no tool call in the last
turn) after the given number of turns, or the `reached MAX_ITERS without
completion` error after the given number of turns. -/
inductive TaskOutcome where
  | completed (iterations : Nat)
  | aborted (iterations : Nat)
deriving DecidableEq

/-- Execute the tool calls of one turn in order, threading the filesystem. -/
def runCalls (repoRoot : String) :
    FsNode → List (String × List (String × JVal)) → FsNode
  | fs, [] => fs
  | fs, (nm, args) :: rest => runCalls repoRoot (executeTool fs repoRoot nm args true).2 rest

/-- The iteration loop of `executeTask` (api.go): each remaining-budget step
queries the model for turn `i`; a turn with no tool calls completes the task,
otherwise the calls are executed and the loop continues; an exhausted budget
aborts. -/
def execLoop (model : Nat → ModelTurn) (repoRoot : String) :
    Nat → Nat → FsNode → TaskOutcome
  | 0, i, _ => .aborted i
  | fuel+1, i, fs =>
    if (model i).calls.isEmpty then .completed (i + 1)
    else execLoop model repoRoot fuel (i + 1) (runCalls repoRoot fs (model i).calls)

/-- Embedding of `executeTask`'s dispatch loop (api.go), abstracted over the
remote model's behaviour per turn. -/
def executeTask (model : Nat → ModelTurn) (repoRoot : String) (fs : FsNode)
    (maxIters : Nat) : TaskOutcome :=
  execLoop model repoRoot maxIters 0 fs

/-- The upward `.git` search of `detectRepoRoot` (main.go), on directories
represented as component lists: check the current directory, then its parent,
stopping after the root (whose parent equals itself).  The fuel equals the
component count, so the root is the last directory checked. -/
def findGitAux (hasGit : List String → Bool) : Nat → List String → Option (List String)
  | 0, dir => if hasGit dir then some dir else none
  | fuel+1, dir => if hasGit dir then some dir else findGitAux hasGit fuel dir.dropLast

/-- Embedding of `detectRepoRoot` (main.go): honour a set `REPO_ROOT`
environment variable; otherwise walk from the working directory up to the
filesystem root looking for a `.git` entry, and fall back to the working
directory when none is found. -/
def detectRepoRoot (envRepoRoot : Option (List String))
    (hasGit : List String → Bool) (cwd : List String) : List String :=
  match envRepoRoot with
  | some r => r
  | none => (findGitAux hasGit cwd.length cwd).getD cwd

/-- The rejection condition of PathPolicy `validate` as the specification
states it: empty, raw newline or carriage return, a volume/drive prefix, an
absolute path, a leading home-directory marker, or a ".." path segment
(split on '/'). -/
def specUnsafePath (path : String) : Prop :=
  path = "" ∨ hasNlCr path = true ∨ goVolumeName path ≠ "" ∨
  goIsAbs path = true ∨ strHasPrefix "~" path = true ∨ hasDotDotSeg path = true

/-- All lines numbered consecutively from `n`, rendered `%06d\t%s`-style. -/
def numberAll : Nat → List (List Char) → List String
  | _, [] => []
  | n, l :: ls => (fmt6 n ++ "\t" ++ String.mk l) :: numberAll (n + 1) ls

/-- Invariant of the `filepath.Clean` segment accumulator: any ".." segments
form a leading run, and no accumulated segment is empty or ".". -/
def cleanInv (acc : List (List Char)) : Prop :=
  ∃ k rest, acc = List.replicate k ['.', '.'] ++ rest ∧
    ['.', '.'] ∉ rest ∧ ∀ l ∈ rest, l ≠ [] ∧ l ≠ ['.']

/-- A simulated model behaviour that requests one tool call on every turn. -/
def modelAlwaysCalls : Nat → ModelTurn :=
  fun _ => { calls := [("Read", [("path", JVal.s "f.txt")])], text := "" }

/-- A simulated model behaviour that never requests a tool call. -/
def modelNoCalls : Nat → ModelTurn :=
  fun _ => { calls := [], text := "done" }

theorem lookupE_setE_self (es : List (String × FsNode)) (p : String) (v : FsNode) :
    lookupE (setE es p v) p = some v := by
  induction es with
  | nil => simp [setE, lookupE]
  | cons hd tl ih =>
    obtain ⟨n, w⟩ := hd
    by_cases h : n = p
    · simp [setE, h, lookupE]
    · simp [setE, h, lookupE, ih]

theorem lookupE_setE_ne (es : List (String × FsNode)) (p r : String) (v : FsNode)
    (h : r ≠ p) : lookupE (setE es p v) r = lookupE es r := by
  induction es with
  | nil => simp [setE, lookupE, Ne.symm h]
  | cons hd tl ih =>
    obtain ⟨n, w⟩ := hd
    by_cases hn : n = p
    · subst hn
      simp [setE, lookupE, Ne.symm h]
    · simp [setE, hn, lookupE, ih]

theorem setE_setE (es : List (String × FsNode)) (p : String) (v w : FsNode) :
    setE (setE es p v) p w = setE es p w := by
  induction es with
  | nil => simp [setE]
  | cons hd tl ih =>
    obtain ⟨n, u⟩ := hd
    by_cases h : n = p
    · simp [setE, h]
    · simp [setE, h, ih]

theorem cleanInv_nil : cleanInv [] := ⟨0, [], by simp, by simp, by simp⟩

theorem cleanInv_step (acc : List (List Char)) (part : List Char)
    (h : cleanInv acc) : cleanInv (cleanAccum acc part) := by
  obtain ⟨k, rest, hacc, hnd, hne⟩ := h
  by_cases h1 : part = [] ∨ part = ['.']
  · have he : cleanAccum acc part = acc := by simp [cleanAccum, h1]
    rw [he]
    exact ⟨k, rest, hacc, hnd, hne⟩
  · by_cases h2 : part = ['.', '.']
    · by_cases h3 : acc ≠ [] ∧ acc.getLast? ≠ some ['.', '.']
      · have he : cleanAccum acc part = acc.dropLast := by
          simp [cleanAccum, h1, h2, h3.1, h3.2]
        rw [he]
        rcases rest.eq_nil_or_concat with hr | ⟨rest0, a, hr⟩
        · exfalso
          subst hr
          rcases Nat.eq_zero_or_pos k with hk | hk
          · subst hk
            simp at hacc
            exact h3.1 hacc
          · obtain ⟨m, hm⟩ := Nat.exists_eq_add_of_lt hk
            apply h3.2
            rw [hacc]
            simp [hm, List.replicate_succ']
        · have hacc2 : acc = (List.replicate k ['.', '.'] ++ rest0) ++ [a] := by
            rw [hacc, hr, List.concat_eq_append, List.append_assoc]
          refine ⟨k, rest0, ?_, ?_, ?_⟩
          · rw [hacc2, List.dropLast_concat]
          · intro hmem
            exact hnd (by simp [hr, List.concat_eq_append, hmem])
          · intro l hl
            exact hne l (by simp [hr, List.concat_eq_append, hl])
      · have he : cleanAccum acc part = acc ++ [['.', '.']] := by
          by_cases ha : acc = []
          · simp [cleanAccum, h1, h2, ha]
          · have hlast : acc.getLast? = some ['.', '.'] := by
              by_contra hg
              exact h3 ⟨ha, hg⟩
            simp [cleanAccum, h1, h2, ha, hlast]
        rw [he]
        have hrest : rest = [] := by
          rcases rest.eq_nil_or_concat with hr | ⟨rest0, a, hr⟩
          · exact hr
          · exfalso
            have hlast : acc.getLast? = some a := by
              rw [hacc, hr, List.concat_eq_append, ← List.append_assoc]
              exact List.getLast?_concat _
            rcases not_and_or.mp h3 with hcase | hcase
            · have : acc = [] := not_not.mp hcase
              rw [this] at hlast
              simp at hlast
            · have : acc.getLast? = some ['.', '.'] := not_not.mp hcase
              rw [hlast] at this
              have ha : a = ['.', '.'] := by injection this
              exact hnd (by simp [hr, List.concat_eq_append, ha])
        refine ⟨k + 1, [], ?_, by simp, by simp⟩
        rw [hacc, hrest, List.replicate_succ']
        simp
    · have he : cleanAccum acc part = acc ++ [part] := by
        simp [cleanAccum, h1, h2]
      rw [he]
      refine ⟨k, rest ++ [part], ?_, ?_, ?_⟩
      · rw [hacc, List.append_assoc]
      · intro hmem
        rcases List.mem_append.mp hmem with hm | hm
        · exact hnd hm
        · simp at hm
          exact h2 hm.symm
      · intro l hl
        rcases List.mem_append.mp hl with hm | hm
        · exact hne l hm
        · simp at hm
          subst hm
          push_neg at h1
          exact h1

theorem cleanInv_goCleanParts (parts : List (List Char)) :
    cleanInv (goCleanParts parts) := by
  unfold goCleanParts
  have main : ∀ (ps acc : List (List Char)) (h : cleanInv acc),
      cleanInv (List.foldl cleanAccum acc ps) := by
    intro ps
    induction ps with
    | nil => intro acc h; simpa using h
    | cons p tl ih => intro acc h; exact ih _ (cleanInv_step acc p h)
  exact main parts [] cleanInv_nil

theorem cleaned_parts_safe (p : String) (l : List Char) (ls : List (List Char))
    (hc : goCleanParts (strSegs (goToSlash p)) = l :: ls)
    (hpre : ['.', '.'].isPrefixOf l = false) :
    ∀ x ∈ (l :: ls).map (fun seg => String.mk seg),
      x ≠ "" ∧ x ≠ "." ∧ x ≠ ".." := by
  have hinv := cleanInv_goCleanParts (strSegs (goToSlash p))
  rw [hc] at hinv
  obtain ⟨k, rest, heq, hnd, hne⟩ := hinv
  have hk : k = 0 := by
    by_contra hk0
    obtain ⟨m, hm⟩ := Nat.exists_eq_succ_of_ne_zero hk0
    subst hm
    rw [List.replicate_succ] at heq
    have hl : l = ['.', '.'] := (List.cons.injEq _ _ _ _ ▸ heq).1
    rw [hl] at hpre
    simp [List.isPrefixOf] at hpre
  subst hk
  simp only [List.replicate, List.nil_append] at heq
  intro x hx
  obtain ⟨seg, hseg, hxeq⟩ := List.mem_map.mp hx
  rw [heq] at hseg
  have h1 := hne seg hseg
  have h2 : seg ≠ ['.', '.'] := fun hd => hnd (hd ▸ hseg)
  subst hxeq
  refine ⟨?_, ?_, ?_⟩
  · intro hcontra
    exact h1.1 (congrArg String.data hcontra)
  · intro hcontra
    exact h1.2 (congrArg String.data hcontra)
  · intro hcontra
    exact h2 (congrArg String.data hcontra)

theorem walkOpen_cons (cur : FsNode) (p : String) (rest : List String)
    (mode : OpenMode) :
    walkOpen cur (p :: rest) mode =
      (if p = "" ∨ p = "." then walkOpen cur rest mode
      else if p = ".." then .error "parent traversal not allowed"
      else
        match cur with
        | .dir es =>
          match rest with
          | [] =>
            match lookupE es p, mode with
            | some (.symlink _), _ => .error "ELOOP"
            | some (.file c), .read => .ok (.file c, .dir es)
            | some (.file _), .write _ => .ok (.file "", .dir (setE es p (.file "")))
            | some (.dir d), .read => .ok (.dir d, .dir es)
            | some (.dir _), .write _ => .error "EISDIR"
            | none, .write true => .ok (.file "", .dir (setE es p (.file "")))
            | none, _ => .error "ENOENT"
          | _ :: _ =>
            match lookupE es p with
            | some (.dir d) =>
              match walkOpen (.dir d) rest mode with
              | .error e => .error e
              | .ok (nd, d2) => .ok (nd, .dir (setE es p d2))
            | some (.symlink _) => .error ("cannot traverse " ++ p ++ ": ELOOP")
            | some (.file _) => .error ("cannot traverse " ++ p ++ ": ENOTDIR")
            | none => .error ("cannot traverse " ++ p ++ ": ENOENT")
        | _ => .error "ENOTDIR") := rfl

theorem walkMk_cons (cur : FsNode) (p : String) (rest : List String) :
    walkMk cur (p :: rest) =
      (if p = "" ∨ p = "." then walkMk cur rest
      else if p = ".." then .error "parent traversal in mkdir"
      else
        match cur with
        | .dir es =>
          match lookupE es p with
          | some (.dir d) =>
            match walkMk (.dir d) rest with
            | .error e => .error e
            | .ok d2 => .ok (.dir (setE es p d2))
          | some (.symlink _) => .error ("mkdirat " ++ p ++ ": EEXIST")
          | some (.file _) => .error ("mkdirat " ++ p ++ ": EEXIST")
          | none =>
            match walkMk (.dir []) rest with
            | .error e => .error e
            | .ok d2 => .ok (.dir (setE es p d2))
        | _ => .error "ENOTDIR") := rfl

theorem walkOpen_symlink_error : ∀ (parts : List String) (cur : FsNode) (mode : OpenMode),
    (∀ x ∈ parts, x ≠ "" ∧ x ≠ "." ∧ x ≠ "..") →
    chainHitsSymlink cur parts = true →
    ∃ e, walkOpen cur parts mode = .error e := by
  intro parts
  induction parts with
  | nil =>
    intro cur mode hskip hsym
    cases cur <;> simp [chainHitsSymlink] at hsym
  | cons p rest ih =>
    intro cur mode hskip hsym
    have hp := hskip p (List.mem_cons_self _ _)
    cases cur with
    | file c => simp [chainHitsSymlink] at hsym
    | symlink t => simp [chainHitsSymlink] at hsym
    | dir es =>
      rw [walkOpen_cons]
      cases hl : lookupE es p with
      | none => simp [chainHitsSymlink, hl] at hsym
      | some nd =>
        cases nd with
        | file c => simp [chainHitsSymlink, hl] at hsym
        | symlink t =>
          cases rest with
          | nil =>
            refine ⟨"ELOOP", ?_⟩
            simp [hp.1, hp.2.1, hp.2.2, hl]
          | cons q qs =>
            refine ⟨"cannot traverse " ++ p ++ ": ELOOP", ?_⟩
            simp [hp.1, hp.2.1, hp.2.2, hl]
        | dir d =>
          cases rest with
          | nil => simp [chainHitsSymlink, hl] at hsym
          | cons q qs =>
            have hch : chainHitsSymlink (.dir d) (q :: qs) = true := by
              simpa [chainHitsSymlink, hl] using hsym
            obtain ⟨e, he⟩ :=
              ih (.dir d) mode (fun x hx => hskip x (List.mem_cons_of_mem _ hx)) hch
            refine ⟨e, ?_⟩
            simp [hp.1, hp.2.1, hp.2.2, hl, he]

theorem openSecure_symlink_error (fs : FsNode) (p : String) (mode : OpenMode)
    (hsym : chainHitsSymlink fs (pathParts p) = true) :
    ∃ e, openSecure fs p mode = .error e := by
  unfold openSecure
  cases hreq : requireSafePath p with
  | some e => exact ⟨e, rfl⟩
  | none =>
    cases hc : goCleanParts (strSegs (goToSlash p)) with
    | nil =>
      unfold pathParts at hsym
      rw [hc] at hsym
      cases fs <;> simp [chainHitsSymlink] at hsym
    | cons l ls =>
      by_cases hpre : ['.', '.'].isPrefixOf l = true
      · exact ⟨"path escapes repository", by simp [hpre]⟩
      · have hpre2 : ['.', '.'].isPrefixOf l = false := by
          cases hb : ['.', '.'].isPrefixOf l with
          | false => rfl
          | true => exact absurd hb hpre
        have hskip := cleaned_parts_safe p l ls hc hpre2
        unfold pathParts at hsym
        rw [hc] at hsym
        simp only [List.map_cons] at hskip hsym
        obtain ⟨e, he⟩ :=
          walkOpen_symlink_error _ fs mode hskip hsym
        refine ⟨e, ?_⟩
        simp [hpre2, he]

theorem walkMk_preserves_chain : ∀ (mkp : List String) (cur cur2 : FsNode),
    walkMk cur mkp = .ok cur2 →
    ∀ ps, chainHitsSymlink cur ps = true → chainHitsSymlink cur2 ps = true := by
  intro mkp
  induction mkp with
  | nil =>
    intro cur cur2 hmk ps hch
    simp [walkMk] at hmk
    rw [← hmk]
    exact hch
  | cons q rest ih =>
    intro cur cur2 hmk ps hch
    rw [walkMk_cons] at hmk
    by_cases hskip : q = "" ∨ q = "."
    · rw [if_pos hskip] at hmk
      exact ih cur cur2 hmk ps hch
    · rw [if_neg hskip] at hmk
      by_cases hdd : q = ".."
      · rw [if_pos hdd] at hmk
        cases hmk
      · rw [if_neg hdd] at hmk
        cases cur with
        | file c => simp [chainHitsSymlink] at hch
        | symlink t => simp [chainHitsSymlink] at hch
        | dir es =>
          cases hl : lookupE es q with
          | none =>
            simp only [hl] at hmk
            cases hw : walkMk (.dir []) rest with
            | error e => simp only [hw] at hmk; cases hmk
            | ok d2 =>
              simp only [hw] at hmk
              injection hmk with h
              subst h
              cases ps with
              | nil => simp [chainHitsSymlink] at hch
              | cons r rs =>
                have hrq : r ≠ q := by
                  intro hrq
                  subst hrq
                  simp [chainHitsSymlink, hl] at hch
                simp only [chainHitsSymlink, lookupE_setE_ne es q r d2 hrq]
                simpa [chainHitsSymlink] using hch
          | some nd =>
            cases nd with
            | symlink t => simp only [hl] at hmk; cases hmk
            | file c => simp only [hl] at hmk; cases hmk
            | dir d =>
              simp only [hl] at hmk
              cases hw : walkMk (.dir d) rest with
              | error e => simp only [hw] at hmk; cases hmk
              | ok d2 =>
                simp only [hw] at hmk
                injection hmk with h
                subst h
                cases ps with
                | nil => simp [chainHitsSymlink] at hch
                | cons r rs =>
                  by_cases hrq : r = q
                  · subst hrq
                    have hch2 : chainHitsSymlink (.dir d) rs = true := by
                      simpa [chainHitsSymlink, hl] using hch
                    have hpres := ih (.dir d) d2 hw rs hch2
                    simp only [chainHitsSymlink, lookupE_setE_self]
                    cases hd2 : d2 with
                    | file c2 => rw [hd2] at hpres; simp [chainHitsSymlink] at hpres
                    | symlink t2 => trivial
                    | dir es2 => rw [hd2] at hpres; exact hpres
                  · simp only [chainHitsSymlink, lookupE_setE_ne es q r d2 hrq]
                    simpa [chainHitsSymlink] using hch

theorem createParentDirs_preserves_chain (fs fs1 : FsNode) (p : String)
    (h : createParentDirs fs p = .ok fs1) :
    ∀ ps, chainHitsSymlink fs ps = true → chainHitsSymlink fs1 ps = true := by
  unfold createParentDirs at h
  cases hd : goDirParts p with
  | nil =>
    rw [hd] at h
    intro ps hch
    simp at h
    rw [← h]
    exact hch
  | cons l ls =>
    rw [hd] at h
    exact walkMk_preserves_chain _ fs fs1 h

/-- Claim C1: a symbolic link at any component of a requested path's chain —
including a non-final component — makes `openSecure` fail in every mode
(the walk opens each component with no-follow semantics relative to the held
directory descriptor), so Read, Write and Edit all fail rather than reading
or writing through the link, and Edit leaves the filesystem unchanged. -/
theorem symlink_component_blocks_all_access (fs : FsNode)
    (p root content old new : String) (startLine endLine maxLines : Int)
    (mode : OpenMode)
    (hsym : chainHitsSymlink fs (pathParts p) = true) :
    (∃ e, openSecure fs p mode = .error e) ∧
    (toolRead fs root p startLine endLine maxLines).ok = false ∧
    ((toolEdit fs root p old new true).1.ok = false ∧
      (toolEdit fs root p old new true).2 = fs) ∧
    (toolWrite fs root p content true).1.ok = false := by
  obtain ⟨er, her⟩ := openSecure_symlink_error fs p .read hsym
  refine ⟨openSecure_symlink_error fs p mode hsym, ?_, ?_, ?_⟩
  · cases hreq : requireSafePath p with
    | some e => simp [toolRead, hreq]
    | none =>
      by_cases hden : isDeniedPath p
      · simp [toolRead, hreq, hden]
      · simp [toolRead, hreq, hden, her]
  · refine ⟨?_, ?_⟩ <;>
      (cases hreq : requireSafePath p with
       | some e => simp [toolEdit, hreq]
       | none =>
         by_cases hden : isDeniedPath p
         · simp [toolEdit, hreq, hden]
         · by_cases hold : old = ""
           · simp [toolEdit, hreq, hden, hold]
           · simp [toolEdit, hreq, hden, hold, her])
  · cases hreq : requireSafePath p with
    | some e => simp [toolWrite, hreq]
    | none =>
      by_cases hden : isDeniedPath p
      · simp [toolWrite, hreq, hden]
      · cases hcp : createParentDirs fs p with
        | error e => simp [toolWrite, hreq, hden, hcp]
        | ok fs1 =>
          have hsym1 := createParentDirs_preserves_chain fs fs1 p hcp _ hsym
          obtain ⟨e, he⟩ := openSecure_symlink_error fs1 p (.write true) hsym1
          simp [toolWrite, hreq, hden, hcp, he]

theorem symlink_component_blocks_all_access_witness :
    (toolRead (FsNode.dir [("ln", FsNode.symlink "/etc")]) "root" "ln/passwd"
      1 10 0).ok = false ∧
    (toolWrite (FsNode.dir [("ln", FsNode.symlink "/etc")]) "root" "ln/passwd"
      "x" true).1.ok = false := by
  have h := symlink_component_blocks_all_access
    (FsNode.dir [("ln", FsNode.symlink "/etc")]) "ln/passwd" "root" "x" "a" "b"
    1 10 0 OpenMode.read (by decide)
  exact ⟨h.2.1, h.2.2.2⟩

/-- Claim C5: `requireSafePath` rejects a path exactly when it is empty,
contains a raw newline or carriage return, has a volume/drive prefix, is
absolute, starts with "~", or has a ".." segment when split on '/'; it is a
pure function (no I/O, deterministic by construction). -/
theorem requireSafePath_spec_iff (path : String) :
    (requireSafePath path).isSome ↔ specUnsafePath path := by
  unfold requireSafePath specUnsafePath
  split_ifs with h1 h2 h3 h4 h5 <;> simp_all [Bool.not_eq_true] <;> tauto

theorem requireSafePath_spec_iff_witness :
    (requireSafePath "../x").isSome :=
  (requireSafePath_spec_iff "../x").mpr (by unfold specUnsafePath; decide)

theorem findGitAux_none (hasGit : List String → Bool) :
    ∀ (fuel : Nat) (dir : List String),
      (∀ k, k ≤ dir.length → hasGit (dir.take k) = false) →
      findGitAux hasGit fuel dir = none := by
  intro fuel
  induction fuel with
  | zero =>
    intro dir h
    have hg : hasGit dir = false := by
      have := h dir.length le_rfl
      rwa [List.take_length] at this
    simp [findGitAux, hg]
  | succ f ih =>
    intro dir h
    have hg : hasGit dir = false := by
      have := h dir.length le_rfl
      rwa [List.take_length] at this
    have hstep : ∀ k, k ≤ dir.dropLast.length → hasGit (dir.dropLast.take k) = false := by
      intro k hk
      rw [List.length_dropLast] at hk
      have hdl : dir.dropLast = dir.take (dir.length - 1) := List.dropLast_eq_take dir
      rw [hdl, List.take_take, Nat.min_eq_left hk]
      exact h k (by omega)
    simp only [findGitAux, hg, Bool.false_eq_true, if_false]
    exact ih _ hstep

/-- Claim C10: with `REPO_ROOT` unset and no ancestor of the working
directory (itself and the filesystem root included) containing a `.git`
entry, `detectRepoRoot` silently returns the working directory with no
error. -/
theorem detectRepoRoot_fallback_cwd (hasGit : List String → Bool)
    (cwd : List String)
    (h : ∀ k, k ≤ cwd.length → hasGit (cwd.take k) = false) :
    detectRepoRoot none hasGit cwd = cwd := by
  unfold detectRepoRoot
  rw [findGitAux_none hasGit cwd.length cwd h]
  rfl

theorem detectRepoRoot_fallback_cwd_witness :
    detectRepoRoot none (fun _ => false) ["home", "user"] = ["home", "user"] :=
  detectRepoRoot_fallback_cwd (fun _ => false) ["home", "user"] (fun _ _ => rfl)

theorem execLoop_aborted (model : Nat → ModelTurn) (root : String) :
    ∀ (fuel i : Nat) (fs : FsNode),
      (∀ n, i ≤ n → n < i + fuel → (model n).calls ≠ []) →
      execLoop model root fuel i fs = .aborted (i + fuel) := by
  intro fuel
  induction fuel with
  | zero => intro i fs h; simp [execLoop]
  | succ f ih =>
    intro i fs h
    have hne : (model i).calls ≠ [] := h i le_rfl (by omega)
    have hemp : (model i).calls.isEmpty = false := by
      cases hc : (model i).calls with
      | nil => exact absurd hc hne
      | cons a t => rfl
    simp only [execLoop, hemp, Bool.false_eq_true, if_false]
    rw [ih (i + 1) _ (fun n hn1 hn2 => h n (by omega) (by omega))]
    congr 1
    omega

theorem execLoop_completed (model : Nat → ModelTurn) (root : String) :
    ∀ (fuel i : Nat) (fs : FsNode) (k : Nat), i ≤ k → k < i + fuel →
      (∀ j, i ≤ j → j < k → (model j).calls ≠ []) → (model k).calls = [] →
      execLoop model root fuel i fs = .completed (k + 1) := by
  intro fuel
  induction fuel with
  | zero =>
    intro i fs k h1 h2 _ _
    exact absurd h2 (by omega)
  | succ f ih =>
    intro i fs k h1 h2 hpre hk
    by_cases hik : i = k
    · subst hik
      have hemp : (model i).calls.isEmpty = true := by simp [hk]
      simp [execLoop, hemp]
    · have hlt : i < k := lt_of_le_of_ne h1 hik
      have hne := hpre i le_rfl hlt
      have hemp : (model i).calls.isEmpty = false := by
        cases hc : (model i).calls with
        | nil => exact absurd hc hne
        | cons a t => rfl
      simp only [execLoop, hemp, Bool.false_eq_true, if_false]
      exact ih (i + 1) _ k (by omega) (by omega)
        (fun j hj1 hj2 => hpre j (by omega) hj2) hk

/-- Claim C8: a model behaviour that requests a tool call on every turn makes
the dispatch loop run exactly `maxIters` turns and return the aborted
outcome; and a turn with no tool call terminates the loop immediately with a
success outcome. -/
theorem dispatch_loop_termination (model : Nat → ModelTurn) (root : String)
    (fs : FsNode) (maxIters : Nat) :
    ((∀ n, n < maxIters → (model n).calls ≠ []) →
      executeTask model root fs maxIters = .aborted maxIters) ∧
    (∀ k, k < maxIters → (∀ j, j < k → (model j).calls ≠ []) →
      (model k).calls = [] →
      executeTask model root fs maxIters = .completed (k + 1)) := by
  constructor
  · intro h
    unfold executeTask
    have := execLoop_aborted model root maxIters 0 fs
      (fun n _ hn2 => h n (by omega))
    simpa using this
  · intro k hk hpre hck
    unfold executeTask
    exact execLoop_completed model root maxIters 0 fs k (by omega) (by omega)
      (fun j _ hj2 => hpre j hj2) hck

theorem dispatch_loop_termination_witness :
    executeTask modelAlwaysCalls "root" (FsNode.dir []) 2 = .aborted 2 ∧
    executeTask modelNoCalls "root" (FsNode.dir []) 2 = .completed 1 := by
  constructor
  · exact (dispatch_loop_termination modelAlwaysCalls "root" (FsNode.dir []) 2).1
      (by intro n _; simp [modelAlwaysCalls])
  · exact (dispatch_loop_termination modelNoCalls "root" (FsNode.dir []) 2).2 0
      (by omega) (by intro j hj; omega) rfl

/-- Claim C4 (code bug): `getToolsSchema` advertises five tools including
"Grep", and `toolGrep` exists and works, but the dispatcher `executeTool` has
no "Grep" case: a "Grep" invocation falls through to the default branch and
returns the unknown-tool failure. -/
theorem executeTool_grep_unknown_tool :
    getToolsSchema.map Prod.fst = ["Glob", "Grep", "Read", "Write", "Edit"] ∧
    (executeTool (FsNode.dir [("a.txt", FsNode.file "hit")]) "root" "Grep"
        [("query", JVal.s "hit")] true).1 =
      { ok := false, error := "Unknown tool: Grep" } ∧
    (toolGrep (FsNode.dir [("a.txt", FsNode.file "hit")]) "root" "hit" "" 0).results =
      ["a.txt:1:hit"] := by
  refine ⟨by decide, by decide, by decide⟩

theorem cntAux_pos_iff_containsSub (pat : List Char) (hp : pat ≠ []) :
    ∀ s, containsSub s pat = true ↔ 1 ≤ cntAux pat s 0 := by
  intro s
  induction s with
  | nil =>
    simp [containsSub, cntAux, List.isEmpty_iff, hp]
  | cons c t ih =>
    by_cases hpre : pat.isPrefixOf (c :: t)
    · simp [containsSub, cntAux, hpre]
    · simp only [containsSub, cntAux, hpre, Bool.false_or, if_false]
      exact ih

theorem replAux_decomp (pat rep : List Char) (hp : pat ≠ []) :
    ∀ s, containsSub s pat = true →
      ∃ pre suf, s = pre ++ pat ++ suf ∧ replAux pat rep s = pre ++ rep ++ suf := by
  intro s
  induction s with
  | nil =>
    intro h
    simp [containsSub, List.isEmpty_iff, hp] at h
  | cons c t ih =>
    intro h
    by_cases hpre : pat.isPrefixOf (c :: t)
    · have hpfx : pat <+: c :: t := List.isPrefixOf_iff_prefix.mp hpre
      obtain ⟨suf, hsuf⟩ := hpfx
      refine ⟨[], suf, by simp [hsuf.symm], ?_⟩
      simp only [replAux, hpre, if_true, List.nil_append]
      rw [← hsuf, List.drop_left]
    · have hct : containsSub t pat = true := by
        simpa [containsSub, hpre] using h
      obtain ⟨pre, suf, heq, hrepl⟩ := ih hct
      refine ⟨c :: pre, suf, by simp [heq], ?_⟩
      simp [replAux, hpre, hrepl]

/-- Claim C3: on a file holding `content`, Edit with a non-empty `old_string`
fails with the distinguishable "not found" error when `old_string` occurs zero
times (leaving the file unchanged), fails with the distinguishable
"appears n times (must be unique)" error when it occurs two or more times
(unchanged), and succeeds when it occurs exactly once, the new file content
being the old content with that occurrence replaced and every other byte
intact (occurrences counted as `strings.Count` does, non-overlapping). -/
theorem edit_exact_match_uniqueness (content old new : String) (hold : old ≠ "") :
    (countOcc content.toList old.toList = 0 →
      (toolEdit (FsNode.dir [("f.txt", FsNode.file content)]) "root" "f.txt" old new true).1.ok = false ∧
      (toolEdit (FsNode.dir [("f.txt", FsNode.file content)]) "root" "f.txt" old new true).1.error =
        "Edit: old_string not found in file" ∧
      (toolEdit (FsNode.dir [("f.txt", FsNode.file content)]) "root" "f.txt" old new true).2 =
        FsNode.dir [("f.txt", FsNode.file content)]) ∧
    (2 ≤ countOcc content.toList old.toList →
      (toolEdit (FsNode.dir [("f.txt", FsNode.file content)]) "root" "f.txt" old new true).1.ok = false ∧
      (toolEdit (FsNode.dir [("f.txt", FsNode.file content)]) "root" "f.txt" old new true).1.error =
        "Edit: old_string appears " ++ toString (countOcc content.toList old.toList) ++
          " times (must be unique)" ∧
      (toolEdit (FsNode.dir [("f.txt", FsNode.file content)]) "root" "f.txt" old new true).2 =
        FsNode.dir [("f.txt", FsNode.file content)]) ∧
    (countOcc content.toList old.toList = 1 →
      (toolEdit (FsNode.dir [("f.txt", FsNode.file content)]) "root" "f.txt" old new true).1.ok = true ∧
      ∃ pre suf, content.toList = pre ++ old.toList ++ suf ∧
        fileAt (toolEdit (FsNode.dir [("f.txt", FsNode.file content)]) "root" "f.txt" old new true).2
            ["f.txt"] =
          some (String.mk (pre ++ new.toList ++ suf))) := by
  have holdl : old.toList ≠ [] := by
    intro hn
    apply hold
    cases old with
    | mk l =>
      have hl : l = [] := hn
      rw [hl]
  have hcnt : countOcc content.toList old.toList = cntAux old.toList content.toList 0 := by
    unfold countOcc
    rw [if_neg holdl]
  have hreq : requireSafePath "f.txt" = none := by decide
  have hden : isDeniedPath "f.txt" = false := by decide
  have hopen : openSecure (FsNode.dir [("f.txt", FsNode.file content)]) "f.txt" .read =
      .ok (FsNode.file content, FsNode.dir [("f.txt", FsNode.file content)]) := rfl
  have hopenw : openSecure (FsNode.dir [("f.txt", FsNode.file content)]) "f.txt" (.write false) =
      .ok (FsNode.file "", FsNode.dir [("f.txt", FsNode.file "")]) := rfl
  have hset : ∀ nc : String,
      setFile (FsNode.dir [("f.txt", FsNode.file "")]) (pathParts "f.txt") nc =
        FsNode.dir [("f.txt", FsNode.file nc)] := fun nc => rfl
  refine ⟨?_, ?_, ?_⟩
  · intro h0
    have hcon : containsSub content.data old.data = false := by
      cases hb : containsSub content.toList old.toList with
      | false => exact hb
      | true =>
        have hpos := (cntAux_pos_iff_containsSub old.toList holdl content.toList).mp hb
        rw [← hcnt] at hpos
        omega
    refine ⟨?_, ?_, ?_⟩ <;> simp [toolEdit, hreq, hden, hold, hopen, hcon]
  · intro h2
    have hcon : containsSub content.data old.data = true := by
      apply (cntAux_pos_iff_containsSub old.toList holdl content.toList).mpr
      rw [← hcnt]
      omega
    have hgt : 1 < countOcc content.data old.data := h2
    refine ⟨?_, ?_, ?_⟩ <;> simp [toolEdit, hreq, hden, hold, hopen, hcon, hgt]
  · intro h1
    have hcon : containsSub content.data old.data = true := by
      apply (cntAux_pos_iff_containsSub old.toList holdl content.toList).mpr
      rw [← hcnt]
      omega
    have hngt : ¬(1 < countOcc content.data old.data) := by
      have h1d : countOcc content.data old.data = 1 := h1
      omega
    obtain ⟨pre, suf, heq, hrepl⟩ :=
      replAux_decomp old.toList new.toList holdl content.toList
        (by exact hcon)
    have hrepl2 : replaceOnce content.data old.data new.data = pre ++ new.data ++ suf := by
      have holdlD : old.data ≠ [] := holdl
      unfold replaceOnce
      rw [if_neg holdlD]
      exact hrepl
    refine ⟨?_, pre, suf, heq, ?_⟩
    · simp [toolEdit, hreq, hden, hold, hopen, hcon, hngt, hopenw]
    · have hfs : (toolEdit (FsNode.dir [("f.txt", FsNode.file content)]) "root" "f.txt" old new true).2 =
          FsNode.dir [("f.txt", FsNode.file
            (String.mk (replaceOnce content.data old.data new.data)))] := by
        simp [toolEdit, hreq, hden, hold, hopen, hcon, hngt, hopenw]
        exact hset _
      rw [hfs, hrepl2]
      simp [fileAt, lookupE]

theorem edit_exact_match_uniqueness_witness :
    (toolEdit (FsNode.dir [("f.txt", FsNode.file "hello world")]) "root" "f.txt"
      "world" "there" true).1.ok = true :=
  ((edit_exact_match_uniqueness "hello world" "world" "there" (by decide)).2.2
    (by decide)).1

/-- Claim C6 counterexample: Edit opens the target with `O_WRONLY|O_TRUNC`
before writing; if the final write syscall then fails, Edit returns a failure
ToolResult but the file has already been truncated — the prior content
"hello world" is gone and the file is left empty. -/
theorem edit_write_failure_truncates_file :
    (toolEdit (FsNode.dir [("f.txt", FsNode.file "hello world")]) "root" "f.txt"
      "world" "there" false).1.ok = false ∧
    fileAt (FsNode.dir [("f.txt", FsNode.file "hello world")]) ["f.txt"] =
      some "hello world" ∧
    fileAt (toolEdit (FsNode.dir [("f.txt", FsNode.file "hello world")]) "root"
      "f.txt" "world" "there" false).2 ["f.txt"] = some "" := by
  refine ⟨by decide, by decide, by decide⟩

theorem fileAt_dir_nil : ∀ q, fileAt (FsNode.dir []) q = none := by
  intro q
  cases q with
  | nil => simp [fileAt]
  | cons r rs => simp [fileAt, lookupE]

theorem walkMk_preserves_fileAt : ∀ (mkp : List String) (cur cur2 : FsNode),
    walkMk cur mkp = .ok cur2 → ∀ q, fileAt cur2 q = fileAt cur q := by
  intro mkp
  induction mkp with
  | nil =>
    intro cur cur2 hmk q
    simp [walkMk] at hmk
    rw [← hmk]
  | cons p rest ih =>
    intro cur cur2 hmk q
    rw [walkMk_cons] at hmk
    by_cases hskip : p = "" ∨ p = "."
    · rw [if_pos hskip] at hmk
      exact ih cur cur2 hmk q
    · rw [if_neg hskip] at hmk
      by_cases hdd : p = ".."
      · rw [if_pos hdd] at hmk
        cases hmk
      · rw [if_neg hdd] at hmk
        cases cur with
        | file c => simp at hmk
        | symlink t => simp at hmk
        | dir es =>
          cases hl : lookupE es p with
          | none =>
            simp only [hl] at hmk
            cases hw : walkMk (.dir []) rest with
            | error e => simp only [hw] at hmk; cases hmk
            | ok d2 =>
              simp only [hw] at hmk
              injection hmk with h
              subst h
              cases q with
              | nil => simp [fileAt]
              | cons r rs =>
                by_cases hrp : r = p
                · subst hrp
                  simp only [fileAt, lookupE_setE_self, hl]
                  rw [ih (.dir []) d2 hw rs]
                  exact fileAt_dir_nil rs
                · simp only [fileAt, lookupE_setE_ne es p r d2 hrp]
          | some nd =>
            cases nd with
            | symlink t => simp only [hl] at hmk; cases hmk
            | file c => simp only [hl] at hmk; cases hmk
            | dir d =>
              simp only [hl] at hmk
              cases hw : walkMk (.dir d) rest with
              | error e => simp only [hw] at hmk; cases hmk
              | ok d2 =>
                simp only [hw] at hmk
                injection hmk with h
                subst h
                cases q with
                | nil => simp [fileAt]
                | cons r rs =>
                  by_cases hrp : r = p
                  · subst hrp
                    simp only [fileAt, lookupE_setE_self, hl]
                    exact ih (.dir d) d2 hw rs
                  · simp only [fileAt, lookupE_setE_ne es p r d2 hrp]

theorem createParentDirs_preserves_fileAt (fs fs1 : FsNode) (p : String)
    (h : createParentDirs fs p = .ok fs1) :
    ∀ q, fileAt fs1 q = fileAt fs q := by
  unfold createParentDirs at h
  cases hd : goDirParts p with
  | nil =>
    rw [hd] at h
    intro q
    simp at h
    rw [← h]
  | cons l ls =>
    rw [hd] at h
    exact walkMk_preserves_fileAt _ fs fs1 h

/-- Claim C6 amended: provided the final write syscall succeeds, a failing
Edit leaves the filesystem exactly as it was, and a failing Write leaves
every file's content unchanged (it may still have created empty parent
directories); only a failure of the write syscall itself, after the
truncating open, can leave a truncated file behind. -/
theorem mutators_atomic_when_write_succeeds (fs : FsNode)
    (root path old new content : String) :
    ((toolEdit fs root path old new true).1.ok = false →
      (toolEdit fs root path old new true).2 = fs) ∧
    ((toolWrite fs root path content true).1.ok = false →
      ∀ q, fileAt (toolWrite fs root path content true).2 q = fileAt fs q) := by
  constructor
  · intro h
    cases hreq : requireSafePath path with
    | some e => simp [toolEdit, hreq]
    | none =>
      by_cases hden : isDeniedPath path
      · simp [toolEdit, hreq, hden]
      · by_cases hold : old = ""
        · simp [toolEdit, hreq, hden, hold]
        · cases hop : openSecure fs path .read with
          | error e => simp [toolEdit, hreq, hden, hold, hop]
          | ok pr =>
            obtain ⟨node, fs0⟩ := pr
            cases node with
            | file c =>
              by_cases hcon : containsSub c.data old.data = true
              · by_cases hgt : 1 < countOcc c.data old.data
                · simp [toolEdit, hreq, hden, hold, hop, hcon, hgt]
                · cases hopw : openSecure fs path (.write false) with
                  | error e => simp [toolEdit, hreq, hden, hold, hop, hcon, hgt, hopw]
                  | ok pr2 =>
                    obtain ⟨node2, fs1⟩ := pr2
                    simp [toolEdit, hreq, hden, hold, hop, hcon, hgt, hopw] at h
              · simp [toolEdit, hreq, hden, hold, hop, hcon]
            | symlink t => simp [toolEdit, hreq, hden, hold, hop]
            | dir d => simp [toolEdit, hreq, hden, hold, hop]
  · intro h q
    cases hreq : requireSafePath path with
    | some e => simp [toolWrite, hreq]
    | none =>
      by_cases hden : isDeniedPath path
      · simp [toolWrite, hreq, hden]
      · cases hcp : createParentDirs fs path with
        | error e => simp [toolWrite, hreq, hden, hcp]
        | ok fs1 =>
          have hpres := createParentDirs_preserves_fileAt fs fs1 path hcp
          cases hopw : openSecure fs1 path (.write true) with
          | error e =>
            simp only [toolWrite, hreq, hden, hcp, hopw]
            exact hpres q
          | ok pr =>
            obtain ⟨node, fs2⟩ := pr
            simp [toolWrite, hreq, hden, hcp, hopw] at h

theorem mutators_atomic_when_write_succeeds_witness :
    (toolEdit (FsNode.dir [("f.txt", FsNode.file "abc")]) "root" "f.txt" "zz" "y"
      true).2 = FsNode.dir [("f.txt", FsNode.file "abc")] ∧
    fileAt (toolWrite (FsNode.dir [("d", FsNode.dir [])]) "root" "d" "c" true).2
      ["d"] = fileAt (FsNode.dir [("d", FsNode.dir [])]) ["d"] := by
  constructor
  · exact (mutators_atomic_when_write_succeeds
      (FsNode.dir [("f.txt", FsNode.file "abc")]) "root" "f.txt" "zz" "y" "c").1
      (by decide)
  · exact (mutators_atomic_when_write_succeeds
      (FsNode.dir [("d", FsNode.dir [])]) "root" "d" "zz" "y" "c").2
      (by decide) ["d"]

/-- Claim C2 counterexample: the pattern ".env" passes `requireSafePath` and
is denylisted, yet `toolGlob` does not short-circuit with a failure — it
expands the pattern against the filesystem and returns a success result
(with the denied match merely filtered out). -/
theorem glob_denied_pattern_returns_success :
    requireSafePath ".env" = none ∧ isDeniedPath ".env" = true ∧
    (toolGlob (FsNode.dir [(".env", FsNode.file "SECRET=1")]) "root" ".env" 0).ok = true ∧
    (toolGlob (FsNode.dir [(".env", FsNode.file "SECRET=1")]) "root" ".env" 0).error = "" := by
  refine ⟨by decide, by decide, by decide, by decide⟩

theorem globLoop_results_not_denied (fs : FsNode) (maxN : Nat) :
    ∀ (cands : List (String × FsNode)) (acc : List String),
      (∀ x ∈ acc, isDeniedPath x = false) →
      ∀ r ∈ globLoop fs maxN cands acc, isDeniedPath r = false := by
  intro cands
  induction cands with
  | nil =>
    intro acc hacc r hr
    simp only [globLoop] at hr
    exact hacc r hr
  | cons e rest ih =>
    obtain ⟨rp, nd⟩ := e
    intro acc hacc r hr
    simp only [globLoop] at hr
    by_cases hmax : maxN ≤ acc.length
    · rw [if_pos hmax] at hr
      exact hacc r hr
    · rw [if_neg hmax] at hr
      cases nd with
      | file c =>
        by_cases hden : isDeniedPath rp
        · simp only [hden, if_true] at hr
          exact ih acc hacc r hr
        · simp only [hden, Bool.false_eq_true, if_false] at hr
          by_cases hcf : confineToRepoB fs rp
          · simp only [hcf, if_true] at hr
            refine ih (acc ++ [rp]) ?_ r hr
            intro x hx
            rcases List.mem_append.mp hx with hm | hm
            · exact hacc x hm
            · simp at hm
              subst hm
              simpa using hden
          · simp only [hcf, Bool.false_eq_true, if_false] at hr
            exact ih acc hacc r hr
      | symlink t => exact ih acc hacc r hr
      | dir d => exact ih acc hacc r hr

theorem grepLines_results_shape (query rp : String) (maxN : Nat)
    (hrp : isDeniedPath rp = false) :
    ∀ (ls : List (List Char)) (n : Nat) (acc : List String),
      (∀ x ∈ acc, ∃ a b, x = a ++ ":" ++ b ∧ isDeniedPath a = false) →
      ∀ r ∈ grepLines query rp maxN ls n acc,
        ∃ a b, r = a ++ ":" ++ b ∧ isDeniedPath a = false := by
  intro ls
  induction ls with
  | nil =>
    intro n acc hacc r hr
    simp only [grepLines] at hr
    exact hacc r hr
  | cons l t ih =>
    intro n acc hacc r hr
    simp only [grepLines] at hr
    by_cases hmax : maxN ≤ acc.length
    · rw [if_pos hmax] at hr
      exact hacc r hr
    · rw [if_neg hmax] at hr
      by_cases hcon : containsSub l query.toList
      · simp only [hcon, if_true] at hr
        refine ih (n + 1) _ ?_ r hr
        intro x hx
        rcases List.mem_append.mp hx with hm | hm
        · exact hacc x hm
        · simp at hm
          subst hm
          refine ⟨rp, toString n ++ ":" ++ String.mk l, ?_, hrp⟩
          simp [String.append_assoc]
      · simp only [hcon, Bool.false_eq_true, if_false] at hr
        exact ih (n + 1) acc hacc r hr

theorem grepLoop_results_shape (fs : FsNode) (query globFilter : String) (maxN : Nat) :
    ∀ (cands : List (String × FsNode)) (acc : List String),
      (∀ x ∈ acc, ∃ a b, x = a ++ ":" ++ b ∧ isDeniedPath a = false) →
      ∀ r ∈ grepLoop fs query globFilter maxN cands acc,
        ∃ a b, r = a ++ ":" ++ b ∧ isDeniedPath a = false := by
  intro cands
  induction cands with
  | nil =>
    intro acc hacc r hr
    simp only [grepLoop] at hr
    exact hacc r hr
  | cons e rest ih =>
    obtain ⟨rp, nd⟩ := e
    intro acc hacc r hr
    cases nd with
    | file c =>
      simp only [grepLoop] at hr
      by_cases hden : isDeniedPath rp
      · rw [if_pos hden] at hr
        exact ih acc hacc r hr
      · rw [if_neg hden] at hr
        by_cases hglob : globFilter ≠ "" ∧ ¬matchGlobFull globFilter rp = true
        · rw [if_pos hglob] at hr
          exact ih acc hacc r hr
        · rw [if_neg hglob] at hr
          by_cases hsize : maxGrepFileSize < c.length
          · rw [if_pos hsize] at hr
            exact ih acc hacc r hr
          · rw [if_neg hsize] at hr
            by_cases hcf : ¬confineToRepoB fs rp = true
            · rw [if_pos hcf] at hr
              exact ih acc hacc r hr
            · rw [if_neg hcf] at hr
              by_cases hmax : maxN ≤ acc.length
              · rw [if_pos hmax] at hr
                exact hacc r hr
              · rw [if_neg hmax] at hr
                cases hop : openSecure fs rp .read with
                | error e2 =>
                  simp only [hop] at hr
                  exact ih acc hacc r hr
                | ok pr =>
                  obtain ⟨node, fs2⟩ := pr
                  cases node with
                  | file cc =>
                    simp only [hop] at hr
                    refine ih _ ?_ r hr
                    exact grepLines_results_shape query rp maxN
                      (by simpa using hden) (scanLines cc.toList) 1 acc hacc
                  | symlink t =>
                    simp only [hop] at hr
                    exact ih acc hacc r hr
                  | dir d =>
                    simp only [hop] at hr
                    exact ih acc hacc r hr
    | symlink t =>
      simp only [grepLoop] at hr
      split at hr
      · exact ih acc hacc r hr
      · split at hr
        · exact ih acc hacc r hr
        · exact ih acc hacc r hr
    | dir d =>
      simp only [grepLoop] at hr
      split at hr
      · exact ih acc hacc r hr
      · split at hr
        · exact ih acc hacc r hr
        · exact ih acc hacc r hr

/-- Claim C2 amended: Read, Write and Edit run both `requireSafePath` and
`isDeniedPath` on their path argument and short-circuit with a failure before
any filesystem access (the failing result is independent of the filesystem
and the filesystem is unchanged).  Glob and Grep run `requireSafePath` on the
pattern/glob-filter argument and short-circuit on its failure, but apply
`isDeniedPath` only per candidate, silently filtering denied paths out of a
success result rather than failing the call. -/
theorem pathPolicy_checks_amended (fs : FsNode) (root p g q content old new : String)
    (startLine endLine maxLines maxResults : Int) :
    ((requireSafePath p).isSome ∨ isDeniedPath p = true →
      ((toolRead fs root p startLine endLine maxLines).ok = false ∧
       toolRead fs root p startLine endLine maxLines =
         toolRead (FsNode.dir []) root p startLine endLine maxLines) ∧
      ((toolWrite fs root p content true).1.ok = false ∧
       (toolWrite fs root p content true).2 = fs) ∧
      ((toolEdit fs root p old new true).1.ok = false ∧
       (toolEdit fs root p old new true).2 = fs)) ∧
    ((requireSafePath p).isSome → (toolGlob fs root p maxResults).ok = false) ∧
    (g ≠ "" → (requireSafePath g).isSome → q ≠ "" →
      (toolGrep fs root q g maxResults).ok = false) ∧
    (∀ r ∈ (toolGlob fs root p maxResults).results, isDeniedPath r = false) ∧
    (∀ r ∈ (toolGrep fs root q g maxResults).results,
      ∃ a b, r = a ++ ":" ++ b ∧ isDeniedPath a = false) := by
  refine ⟨?_, ?_, ?_, ?_, ?_⟩
  · intro h
    rcases h with hs | hd
    · obtain ⟨e, he⟩ := Option.isSome_iff_exists.mp hs
      refine ⟨⟨?_, ?_⟩, ⟨?_, ?_⟩, ⟨?_, ?_⟩⟩ <;>
        simp [toolRead, toolWrite, toolEdit, he]
    · cases hreq : requireSafePath p with
      | some e =>
        refine ⟨⟨?_, ?_⟩, ⟨?_, ?_⟩, ⟨?_, ?_⟩⟩ <;>
          simp [toolRead, toolWrite, toolEdit, hreq]
      | none =>
        refine ⟨⟨?_, ?_⟩, ⟨?_, ?_⟩, ⟨?_, ?_⟩⟩ <;>
          simp [toolRead, toolWrite, toolEdit, hreq, hd]
  · intro hs
    obtain ⟨e, he⟩ := Option.isSome_iff_exists.mp hs
    simp [toolGlob, he]
  · intro hg hs hq
    obtain ⟨e, he⟩ := Option.isSome_iff_exists.mp hs
    simp [toolGrep, hq, hg, he]
  · intro r hr
    cases hreq : requireSafePath p with
    | some e => simp [toolGlob, hreq] at hr
    | none =>
      simp only [toolGlob, hreq] at hr
      exact globLoop_results_not_denied fs _ _ [] (by simp) r hr
  · intro r hr
    by_cases hq0 : q = ""
    · simp [toolGrep, hq0] at hr
    · by_cases hg0 : g = ""
      · simp [toolGrep, grepRun, hq0, hg0] at hr
        exact grepLoop_results_shape fs q "" _ _ [] (by simp) r hr
      · cases hrg : requireSafePath g with
        | some e => simp [toolGrep, hq0, hg0, hrg] at hr
        | none =>
          simp [toolGrep, grepRun, hq0, hg0, hrg] at hr
          exact grepLoop_results_shape fs q g _ _ [] (by simp) r hr

theorem pathPolicy_checks_amended_witness :
    (toolRead (FsNode.dir []) "root" "/etc/passwd" 1 1 0).ok = false ∧
    (toolGlob (FsNode.dir []) "root" "../*" 0).ok = false := by
  constructor
  · exact (((pathPolicy_checks_amended (FsNode.dir []) "root" "/etc/passwd" ""
      "qq" "cc" "oo" "nn" 1 1 0 0).1 (Or.inl (by decide))).1).1
  · exact ((pathPolicy_checks_amended (FsNode.dir []) "root" "../*" ""
      "qq" "cc" "oo" "nn" 1 1 0 0).2).1 (by decide)

/-- Claim C7 counterexample: grep over a repository with two matching files
and max_results = 1 stops after one record and returns a ToolResult that is
*identical* to the one produced by a repository holding only that single
match — ok is true, the count is the returned count, and nothing indicates
that truncation occurred (the same tree without the budget yields 2). -/
theorem grep_truncation_silent :
    toolGrep (FsNode.dir [("a.txt", FsNode.file "hit"), ("b.txt", FsNode.file "hit")])
        "root" "hit" "" 1 =
      toolGrep (FsNode.dir [("a.txt", FsNode.file "hit")]) "root" "hit" "" 1 ∧
    (toolGrep (FsNode.dir [("a.txt", FsNode.file "hit"), ("b.txt", FsNode.file "hit")])
      "root" "hit" "" 1).ok = true ∧
    (toolGrep (FsNode.dir [("a.txt", FsNode.file "hit"), ("b.txt", FsNode.file "hit")])
      "root" "hit" "" 1).count = 1 ∧
    (toolGrep (FsNode.dir [("a.txt", FsNode.file "hit"), ("b.txt", FsNode.file "hit")])
      "root" "hit" "" 0).count = 2 := by
  refine ⟨by decide, by decide, by decide, by decide⟩

theorem grepLines_length_le (query rp : String) (maxN : Nat) :
    ∀ (ls : List (List Char)) (n : Nat) (acc : List String),
      acc.length ≤ maxN → (grepLines query rp maxN ls n acc).length ≤ maxN := by
  intro ls
  induction ls with
  | nil => intro n acc h; simpa [grepLines] using h
  | cons l t ih =>
    intro n acc h
    simp only [grepLines]
    by_cases hmax : maxN ≤ acc.length
    · rw [if_pos hmax]
      exact h
    · rw [if_neg hmax]
      by_cases hcon : containsSub l query.toList
      · simp only [hcon, if_true]
        refine ih (n + 1) _ ?_
        simp
        omega
      · simp only [hcon, Bool.false_eq_true, if_false]
        exact ih (n + 1) acc h

theorem grepLoop_length_le (fs : FsNode) (query globFilter : String) (maxN : Nat) :
    ∀ (cands : List (String × FsNode)) (acc : List String),
      acc.length ≤ maxN → (grepLoop fs query globFilter maxN cands acc).length ≤ maxN := by
  intro cands
  induction cands with
  | nil => intro acc h; simpa [grepLoop] using h
  | cons e rest ih =>
    obtain ⟨rp, nd⟩ := e
    intro acc h
    cases nd with
    | file c =>
      simp only [grepLoop]
      by_cases hden : isDeniedPath rp
      · rw [if_pos hden]; exact ih acc h
      · rw [if_neg hden]
        by_cases hglob : globFilter ≠ "" ∧ ¬matchGlobFull globFilter rp = true
        · rw [if_pos hglob]; exact ih acc h
        · rw [if_neg hglob]
          by_cases hsize : maxGrepFileSize < c.length
          · rw [if_pos hsize]; exact ih acc h
          · rw [if_neg hsize]
            by_cases hcf : ¬confineToRepoB fs rp = true
            · rw [if_pos hcf]; exact ih acc h
            · rw [if_neg hcf]
              by_cases hmax : maxN ≤ acc.length
              · rw [if_pos hmax]; exact h
              · rw [if_neg hmax]
                cases hop : openSecure fs rp .read with
                | error e2 => simp only [hop]; exact ih acc h
                | ok pr =>
                  obtain ⟨node, fs2⟩ := pr
                  cases node with
                  | file cc =>
                    simp only [hop]
                    exact ih _ (grepLines_length_le query rp maxN
                      (scanLines cc.toList) 1 acc h)
                  | symlink t => simp only [hop]; exact ih acc h
                  | dir d => simp only [hop]; exact ih acc h
    | symlink t =>
      simp only [grepLoop]
      split
      · exact ih acc h
      · split
        · exact ih acc h
        · exact ih acc h
    | dir d =>
      simp only [grepLoop]
      split
      · exact ih acc h
      · split
        · exact ih acc h
        · exact ih acc h

/-- Claim C7 amended: Search-text never reports truncation.  Every
successful run (non-empty query, valid filter) returns ok=true with an empty
error, the count of the records actually returned, and at most the clamped
result budget — a truncated run carries no indicator beyond the count
itself. -/
theorem grep_reports_no_truncation (fs : FsNode) (root q g : String)
    (maxResults : Int) (hq : q ≠ "") (hg : g = "" ∨ requireSafePath g = none) :
    (toolGrep fs root q g maxResults).ok = true ∧
    (toolGrep fs root q g maxResults).error = "" ∧
    (toolGrep fs root q g maxResults).count =
      (toolGrep fs root q g maxResults).results.length ∧
    (toolGrep fs root q g maxResults).results.length ≤ effMaxResults maxResults := by
  have hrun : toolGrep fs root q g maxResults =
      grepRun fs root q g (effMaxResults maxResults) := by
    rcases hg with hg0 | hrg
    · simp [toolGrep, hq, hg0]
    · by_cases hge : g = ""
      · simp [toolGrep, hq, hge]
      · simp [toolGrep, hq, hge, hrg]
  rw [hrun]
  refine ⟨rfl, rfl, rfl, ?_⟩
  exact grepLoop_length_le fs q g (effMaxResults maxResults) (enumGrep fs) []
    (by simp)

theorem grep_reports_no_truncation_witness :
    (toolGrep (FsNode.dir [("a.txt", FsNode.file "hit"), ("b.txt", FsNode.file "hit")])
      "root" "hit" "" 1).ok = true :=
  (grep_reports_no_truncation
    (FsNode.dir [("a.txt", FsNode.file "hit"), ("b.txt", FsNode.file "hit")])
    "root" "hit" "" 1 (by decide) (Or.inl rfl)).1

theorem walkOpen_ok_dir : ∀ (parts : List String) (cur : FsNode) (mode : OpenMode)
    (nd cur2 : FsNode), walkOpen cur parts mode = .ok (nd, cur2) →
    ∃ es2, cur2 = FsNode.dir es2 := by
  intro parts
  induction parts with
  | nil => intro cur mode nd cur2 h; simp [walkOpen] at h
  | cons p rest ih =>
    intro cur mode nd cur2 h
    rw [walkOpen_cons] at h
    by_cases hskip : p = "" ∨ p = "."
    · rw [if_pos hskip] at h
      exact ih cur mode nd cur2 h
    · rw [if_neg hskip] at h
      by_cases hdd : p = ".."
      · rw [if_pos hdd] at h
        cases h
      · rw [if_neg hdd] at h
        cases cur with
        | file c => simp at h
        | symlink t => simp at h
        | dir es =>
          cases rest with
          | nil =>
            cases hl : lookupE es p with
            | none =>
              cases mode with
              | read => simp [hl] at h
              | write b =>
                cases b with
                | false => simp [hl] at h
                | true =>
                  simp only [hl] at h
                  injection h with hpair
                  injection hpair with h1 h2
                  exact ⟨_, h2.symm⟩
            | some nd0 =>
              cases nd0 with
              | symlink t => simp [hl] at h
              | file c =>
                cases mode with
                | read =>
                  simp only [hl] at h
                  injection h with hpair
                  injection hpair with h1 h2
                  exact ⟨es, h2.symm⟩
                | write b =>
                  simp only [hl] at h
                  injection h with hpair
                  injection hpair with h1 h2
                  exact ⟨_, h2.symm⟩
              | dir d =>
                cases mode with
                | read =>
                  simp only [hl] at h
                  injection h with hpair
                  injection hpair with h1 h2
                  exact ⟨es, h2.symm⟩
                | write b => simp [hl] at h
          | cons q qs =>
            cases hl : lookupE es p with
            | none => simp [hl] at h
            | some nd0 =>
              cases nd0 with
              | file c => simp [hl] at h
              | symlink t => simp [hl] at h
              | dir d =>
                simp only [hl] at h
                cases hw : walkOpen (.dir d) (q :: qs) mode with
                | error e => simp only [hw] at h; cases h
                | ok pr =>
                  obtain ⟨nd1, d2⟩ := pr
                  simp only [hw] at h
                  injection h with hpair
                  injection hpair with h1 h2
                  exact ⟨_, h2.symm⟩

theorem setFile_dir : ∀ (parts : List String) (es : List (String × FsNode)) (c : String),
    ∃ es2, setFile (FsNode.dir es) parts c = FsNode.dir es2 := by
  intro parts es c
  cases parts with
  | nil => exact ⟨es, rfl⟩
  | cons p rest =>
    cases rest with
    | nil => exact ⟨setE es p (.file c), rfl⟩
    | cons q qs =>
      cases hl : lookupE es p with
      | some child => exact ⟨setE es p (setFile child (q :: qs) c), by simp [setFile, hl]⟩
      | none => exact ⟨es, by simp [setFile, hl]⟩

theorem walkOpen_write_read (b : Bool) : ∀ (parts : List String)
    (cur nd cur2 : FsNode) (c : String),
    (∀ x ∈ parts, x ≠ "" ∧ x ≠ "." ∧ x ≠ "..") →
    walkOpen cur parts (.write b) = .ok (nd, cur2) →
    walkOpen (setFile cur2 parts c) parts .read =
      .ok (.file c, setFile cur2 parts c) := by
  intro parts
  induction parts with
  | nil => intro cur nd cur2 c hskip h; simp [walkOpen] at h
  | cons p rest ih =>
    intro cur nd cur2 c hskip h
    have hp := hskip p (List.mem_cons_self _ _)
    rw [walkOpen_cons, if_neg (by simp [hp.1, hp.2.1]), if_neg hp.2.2] at h
    cases cur with
    | file c0 => simp at h
    | symlink t => simp at h
    | dir es =>
      cases rest with
      | nil =>
        cases hl : lookupE es p with
        | none =>
          cases b with
          | false => simp [hl] at h
          | true =>
            simp only [hl] at h
            injection h with hpair
            injection hpair with h1 h2
            subst h2
            have hsf : setFile (FsNode.dir (setE es p (.file ""))) [p] c =
                FsNode.dir (setE es p (.file c)) := by
              simp [setFile, setE_setE]
            rw [hsf]
            rw [walkOpen_cons, if_neg (by simp [hp.1, hp.2.1]), if_neg hp.2.2]
            simp [lookupE_setE_self, setE_setE]
        | some nd0 =>
          cases nd0 with
          | symlink t => simp [hl] at h
          | dir d => simp [hl] at h
          | file c0 =>
            simp only [hl] at h
            injection h with hpair
            injection hpair with h1 h2
            subst h2
            have hsf : setFile (FsNode.dir (setE es p (.file ""))) [p] c =
                FsNode.dir (setE es p (.file c)) := by
              simp [setFile, setE_setE]
            rw [hsf]
            rw [walkOpen_cons, if_neg (by simp [hp.1, hp.2.1]), if_neg hp.2.2]
            simp [lookupE_setE_self, setE_setE]
      | cons q qs =>
        cases hl : lookupE es p with
        | none => simp [hl] at h
        | some nd0 =>
          cases nd0 with
          | file c0 => simp [hl] at h
          | symlink t => simp [hl] at h
          | dir d =>
            simp only [hl] at h
            cases hw : walkOpen (.dir d) (q :: qs) (.write b) with
            | error e => simp only [hw] at h; cases h
            | ok pr =>
              obtain ⟨nd1, d2⟩ := pr
              simp only [hw] at h
              injection h with hpair
              injection hpair with h1 h2
              subst h2
              have hih := ih (.dir d) nd1 d2 c
                (fun x hx => hskip x (List.mem_cons_of_mem _ hx)) hw
              obtain ⟨es2, hes2⟩ := walkOpen_ok_dir (q :: qs) (.dir d) (.write b) nd1 d2 hw
              subst hes2
              obtain ⟨es3, hes3⟩ := setFile_dir (q :: qs) es2 c
              rw [hes3] at hih
              have hsf : setFile (FsNode.dir (setE es p (.dir es2))) (p :: q :: qs) c =
                  FsNode.dir (setE es p (.dir es3)) := by
                simp [setFile, lookupE_setE_self, setE_setE, hes3]
              rw [hsf]
              rw [walkOpen_cons, if_neg (by simp [hp.1, hp.2.1]), if_neg hp.2.2]
              simp [lookupE_setE_self, hih, setE_setE]

theorem openSecure_write_read (fs1 fs2 nd : FsNode) (path : String) (b : Bool)
    (c : String) (h : openSecure fs1 path (.write b) = .ok (nd, fs2)) :
    openSecure (setFile fs2 (pathParts path) c) path .read =
      .ok (.file c, setFile fs2 (pathParts path) c) := by
  unfold openSecure at h ⊢
  cases hreq : requireSafePath path with
  | some e => simp only [hreq] at h; cases h
  | none =>
    simp only [hreq] at h ⊢
    cases hc : goCleanParts (strSegs (goToSlash path)) with
    | nil => simp only [hc] at h; cases h
    | cons l ls =>
      simp only [hc] at h ⊢
      by_cases hpre : ['.', '.'].isPrefixOf l = true
      · simp [hpre] at h
      · have hpre2 : ['.', '.'].isPrefixOf l = false := by
          cases hb : ['.', '.'].isPrefixOf l with
          | false => rfl
          | true => exact absurd hb hpre
        simp only [hpre2, Bool.false_eq_true, if_false] at h ⊢
        have hpp : pathParts path = (l :: ls).map (fun seg => String.mk seg) := by
          unfold pathParts
          rw [hc]
        rw [hpp]
        exact walkOpen_write_read b _ fs1 nd fs2 c
          (cleaned_parts_safe path l ls hc hpre2) h

theorem toolWrite_ok_parts (fs : FsNode) (root path content : String)
    (h : (toolWrite fs root path content true).1.ok = true) :
    requireSafePath path = none ∧ isDeniedPath path = false ∧
    ∃ fs1 nd fs2, createParentDirs fs path = .ok fs1 ∧
      openSecure fs1 path (.write true) = .ok (nd, fs2) ∧
      (toolWrite fs root path content true).2 = setFile fs2 (pathParts path) content := by
  cases hreq : requireSafePath path with
  | some e => simp [toolWrite, hreq] at h
  | none =>
    by_cases hden : isDeniedPath path
    · simp [toolWrite, hreq, hden] at h
    · refine ⟨rfl, by simpa using hden, ?_⟩
      cases hcp : createParentDirs fs path with
      | error e => simp [toolWrite, hreq, hden, hcp] at h
      | ok fs1 =>
        cases hop : openSecure fs1 path (.write true) with
        | error e => simp [toolWrite, hreq, hden, hcp, hop] at h
        | ok pr =>
          obtain ⟨nd, fs2⟩ := pr
          refine ⟨fs1, nd, fs2, rfl, hop, ?_⟩
          simp [toolWrite, hreq, hden, hcp, hop]

theorem scanLines_eq_trueLines (s : List Char)
    (h : ∀ l ∈ trueLines s, dropCR l = l) : scanLines s = trueLines s := by
  unfold scanLines
  calc (trueLines s).map dropCR = (trueLines s).map id :=
        List.map_congr_left (fun a ha => h a ha)
    _ = trueLines s := List.map_id _

theorem take_any_long_false (ls : List (List Char)) (k : Nat)
    (h : ∀ l ∈ ls, l.length ≤ scannerLineLimit) :
    ((ls.take k).any (fun l => scannerLineLimit < l.length)) = false := by
  rw [List.any_eq_false]
  intro a ha
  have := h a (List.take_subset _ _ ha)
  simp
  omega

theorem numberFrom_eq_numberAll (endN : Nat) :
    ∀ (ls : List (List Char)) (n : Nat), 1 ≤ n → n + ls.length ≤ endN + 1 →
      numberFrom 1 endN n ls = numberAll n ls := by
  intro ls
  induction ls with
  | nil => intro n h1 h2; simp [numberFrom, numberAll]
  | cons l t ih =>
    intro n h1 h2
    simp only [List.length_cons] at h2
    simp only [numberFrom, numberAll]
    rw [if_pos ⟨h1, by omega⟩]
    rw [ih (n + 1) (by omega) (by omega)]
    rfl

/-- Claim C9 counterexample: write the content "a\r\nb" and read it back —
the scanner strips the carriage return before the newline, so the returned
numbered lines alter the written line bytes ("a\r" comes back as "a"). -/
theorem write_read_roundtrip_cr_altered :
    (toolWrite (FsNode.dir []) "root" "f.txt" "a\r\nb" true).1.ok = true ∧
    (toolRead (toolWrite (FsNode.dir []) "root" "f.txt" "a\r\nb" true).2 "root"
      "f.txt" 1 2 0).ok = true ∧
    (toolRead (toolWrite (FsNode.dir []) "root" "f.txt" "a\r\nb" true).2 "root"
      "f.txt" 1 2 0).content = "000001\ta\n000002\tb" ∧
    (trueLines (String.toList "a\r\nb")).map String.mk = ["a\r", "b"] ∧
    (toolRead (toolWrite (FsNode.dir []) "root" "f.txt" "a\r\nb" true).2 "root"
        "f.txt" 1 2 0).content ≠
      joinNl (numberFrom 1 2 1 (trueLines (String.toList "a\r\nb"))) := by
  refine ⟨by decide, by decide, by decide, by decide, by decide⟩

/-- Claim C9 amended: Write followed by Read-range(1, N) with N at least the
line count returns exactly the written lines, each numbered `%06d\t`-style —
provided no line ends in a carriage return (the scanner strips it), the
content has at most the 400-line read budget, and each line fits the 1 MB
scanner buffer.  The trailing-newline distinction is not recoverable (lines
are the newline-split segments without a trailing empty segment). -/
theorem write_read_roundtrip_amended (fs : FsNode) (root path content : String)
    (n : Nat)
    (hw : (toolWrite fs root path content true).1.ok = true)
    (hcr : ∀ l ∈ trueLines content.toList, dropCR l = l)
    (hlen : (trueLines content.toList).length ≤ defaultMaxReadLines)
    (hline : ∀ l ∈ trueLines content.toList, l.length ≤ scannerLineLimit)
    (h1 : 1 ≤ n) (hn : (trueLines content.toList).length ≤ n) :
    (toolRead (toolWrite fs root path content true).2 root path 1 (n : Int) 0).ok = true ∧
    (toolRead (toolWrite fs root path content true).2 root path 1 (n : Int) 0).content =
      joinNl (numberAll 1 (trueLines content.toList)) := by
  obtain ⟨hreq, hden, fs1, nd, fs2, hcp, hop, hfs⟩ := toolWrite_ok_parts fs root path content hw
  have hread := openSecure_write_read fs1 fs2 nd path true content hop
  have hscan : scanLines content.toList = trueLines content.toList :=
    scanLines_eq_trueLines _ hcr
  have hscanD : scanLines content.data = trueLines content.data := hscan
  have hnoerr2 : ∀ k, ¬∃ x ∈ List.take k (trueLines content.data),
      scannerLineLimit < x.length := by
    intro k h
    obtain ⟨x, hx, hlt⟩ := h
    have := hline x (List.take_subset _ _ hx)
    omega
  have hn0 : ¬((n : Int) ≤ 0) := by omega
  have hlt1 : ¬((n : Int) < 1) := by omega
  rw [hfs]
  unfold defaultMaxReadLines at hlen
  by_cases h400 : 400 < n
  · have h400I : (400 : Int) < (n : Int) := by omega
    have hnumD : numberFrom 1 400 1 (trueLines content.data) =
        numberAll 1 (trueLines content.data) :=
      numberFrom_eq_numberAll 400 (trueLines content.toList) 1 le_rfl (by omega)
    refine ⟨?_, ?_⟩ <;>
      simp [toolRead, hreq, hden, hread, hn0, hlt1, h400, h400I, hscanD,
        hnoerr2, hnumD, defaultMaxReadLines]
  · have h400I : ¬((400 : Int) < (n : Int)) := by omega
    have hnumD : numberFrom 1 n 1 (trueLines content.data) =
        numberAll 1 (trueLines content.data) :=
      numberFrom_eq_numberAll n (trueLines content.toList) 1 le_rfl (by omega)
    refine ⟨?_, ?_⟩ <;>
      simp [toolRead, hreq, hden, hread, hn0, hlt1, h400, h400I, hscanD,
        hnoerr2, hnumD, defaultMaxReadLines]

theorem write_read_roundtrip_amended_witness :
    (toolRead (toolWrite (FsNode.dir []) "root" "f.txt" "aa\nbb" true).2 "root"
      "f.txt" 1 (2 : Int) 0).content =
      joinNl (numberAll 1 (trueLines (String.toList "aa\nbb"))) :=
  (write_read_roundtrip_amended (FsNode.dir []) "root" "f.txt" "aa\nbb" 2
    (by decide) (by decide) (by decide) (by decide) (by decide) (by decide)).2
